import Mathlib

/-!
Half-edge iterator of libigl: embedding and verified properties.

Source: `include/igl/HalfEdgeIterator.h` and `include/igl/HalfEdgeIterator.cpp`.

The iterator is a cursor `(fi, ei, reverse, boundary)` over three read-only
integer matrices `F`, `FF`, `FFi`.  The matrices are embedded as total lookup
functions on `Int × Int` together with the row count of `F`; a coefficient
outside the matrix is left unconstrained.  The C++ `int` fields are embedded
as `Int`: the only arithmetic of the class is `ei+1`, `ei+2` and `% 3`, which
the claims below use on `ei ∈ {0,1,2}` where no overflow is possible.  The
C++ `%` truncates towards zero, which is `Int.tmod`.

The two `do { flipF(); flipE(); } while(!isBoundaryE());` loops and the loop of
`isBoundaryV` are embedded with an explicit iteration budget: `none` means the
budget was exhausted.
-/

namespace igl

/-- Cursor state, `struct State` of `HalfEdgeIterator.h`. -/
structure State where
  ei : Int
  fi : Int
  reverse : Bool
  boundary : Bool
deriving DecidableEq

/-- The three matrices the iterator is bound to, with `rows = F.rows()`. -/
structure Tables where
  rows : Nat
  F : Int → Int → Int
  FF : Int → Int → Int
  FFi : Int → Int → Int

namespace HalfEdgeIterator

/-- Constructor `HalfEdgeIterator(F,FF,FFi,_fi,_ei,_reverse)`: the initial state. -/
def construct (_fi _ei : Int) (_reverse : Bool) : State :=
  { ei := _ei, fi := _fi, reverse := _reverse, boundary := false }

/-- Method `init`: the returned flag and the state after the call. -/
def init (m : Tables) (s : State) (faceIndex edgeIndex : Int) (reverse : Bool) :
    Bool × State :=
  if faceIndex ≥ 0 && faceIndex < (m.rows : Int) && edgeIndex ≥ 0 && edgeIndex ≤ 2 then
    (true, { ei := edgeIndex, fi := faceIndex, reverse := reverse, boundary := false })
  else
    (false, s)

/-- Accessor `Ei`. -/
def Ei (s : State) : Int := s.ei

/-- Accessor `Fi`. -/
def Fi (s : State) : Int := s.fi

/-- Accessor `Fif`: the face across the current edge. -/
def Fif (m : Tables) (s : State) : Int := m.FF s.fi s.ei

/-- Accessor `HEi`: the mirrored edge index. -/
def HEi (m : Tables) (s : State) : Int := m.FFi s.fi s.ei

/-- Accessor `Eif`: the flipped edge index. -/
def Eif (s : State) : Int :=
  if !s.reverse then Int.tmod (s.ei + 2) 3 else Int.tmod (s.ei + 1) 3

/-- Method `flipF`: the returned flag and the state after the call. -/
def flipF (m : Tables) (s : State) : Bool × State :=
  let fin := Fif m s
  if fin != -1 then
    (true, { s with ei := m.FFi s.fi s.ei, fi := fin, reverse := !s.reverse })
  else
    (false, s)

/-- Method `flipE`. -/
def flipE (s : State) : State :=
  { s with ei := Eif s, reverse := !s.reverse, boundary := false }

/-- Method `flipHE`: `state.boundary = !flipF() && !state.boundary`. -/
def flipHE (m : Tables) (s : State) : State :=
  let r := flipF m s
  { r.2 with boundary := !r.1 && !r.2.boundary }

/-- Method `flipV`. -/
def flipV (s : State) : State :=
  { s with reverse := !s.reverse }

/-- Method `isBoundaryE`. -/
def isBoundaryE (m : Tables) (s : State) : Bool := m.FF s.fi s.ei == -1

/-- Method `isBoundaryHE`. -/
def isBoundaryHE (s : State) : Bool := s.boundary

/-- The loop `do { flipF(); flipE(); } while(!isBoundaryE());` of `nextHE`
and `nextFE`, run for at most `fuel` iterations. -/
def searchLoop (m : Tables) : Nat → State → Option State
  | 0, _ => none
  | fuel + 1, s =>
    let s1 := flipE (flipF m s).2
    if isBoundaryE m s1 then some s1 else searchLoop m fuel s1

/-- Method `nextHE`; `fuel` bounds the iterations of its search loop. -/
def nextHE (m : Tables) (fuel : Nat) (s : State) : Option State :=
  if s.boundary then
    if s.reverse then
      (searchLoop m fuel (flipV s)).map (fun t => flipHE m t)
    else
      (searchLoop m fuel s).map (fun t => flipV (flipHE m t))
  else
    some { s with ei := if s.ei == 2 then 0 else s.ei + 1 }

/-- Method `iterHE`; `fuel` bounds the search loop of the `nextHE()` it calls. -/
def iterHE (m : Tables) (fuel : Nat) (s : State) : Option State :=
  if s.reverse != s.boundary then
    (nextHE m fuel s).map (fun t => flipHE m (flipV t))
  else
    (nextHE m fuel (flipHE m s)).map (fun t => flipV t)

/-- Method `nextFE`: the returned flag and the state after the call; `fuel`
bounds the iterations of its search loop. -/
def nextFE (m : Tables) (fuel : Nat) (s : State) : Option (Bool × State) :=
  if isBoundaryE m s then
    (searchLoop m fuel s).map (fun t => (false, flipE t))
  else
    some (true, flipE (flipF m s).2)

/-- Accessor `Vii`: local index of the active vertex. -/
def Vii (s : State) : Int :=
  if !s.reverse then s.ei else Int.tmod (s.ei + 1) 3

/-- Accessor `Vi`: the active vertex. -/
def Vi (m : Tables) (s : State) : Int := m.F s.fi (Vii s)

/-- Accessor `Viif`: local index of the flipped vertex. -/
def Viif (s : State) : Int :=
  if !s.reverse then Int.tmod (s.ei + 1) 3 else s.ei

/-- Accessor `Vif`: the flipped vertex. -/
def Vif (m : Tables) (s : State) : Int := m.F s.fi (Viif s)

/-- Accessor `Vii0`: local index of the half-edge start. -/
def Vii0 (s : State) : Int :=
  if !s.boundary then s.ei else Int.tmod (s.ei + 1) 3

/-- Accessor `Vi0`: vertex at the half-edge start. -/
def Vi0 (m : Tables) (s : State) : Int := m.F s.fi (Vii0 s)

/-- Accessor `Vii1`: local index of the half-edge end. -/
def Vii1 (s : State) : Int :=
  if !s.boundary then Int.tmod (s.ei + 1) 3 else s.ei

/-- Accessor `Vi1`: vertex at the half-edge end. -/
def Vi1 (m : Tables) (s : State) : Int := m.F s.fi (Vii1 s)

/-- A cursor position inside the tables: `0 ≤ fi < F.rows()` and `ei ∈ {0,1,2}`. -/
def ValidState (m : Tables) (s : State) : Prop :=
  0 ≤ s.fi ∧ s.fi < (m.rows : Int) ∧ 0 ≤ s.ei ∧ s.ei ≤ 2

/-- Mirror invariant of the data model, as the spec states it:
`FF(FF(f,e), FFi(f,e)) == f` for every non-boundary pair. -/
def MirrorFace (m : Tables) : Prop :=
  ∀ f e : Int, 0 ≤ f → f < (m.rows : Int) → 0 ≤ e → e ≤ 2 → m.FF f e ≠ -1 →
    m.FF (m.FF f e) (m.FFi f e) = f

/-- One isolated triangle: a single face whose three edges are all boundary edges. -/
def isolatedTriangle : Tables :=
  { rows := 1
    F := fun _ j => j
    FF := fun _ _ => -1
    FFi := fun _ _ => -1 }

/-- Two triangles `(0,1,2)` and `(2,1,3)` sharing the edge between vertices 1 and 2:
edge 1 of face 0 is edge 0 of face 1, every other edge is a boundary edge. -/
def twoTriangles : Tables :=
  { rows := 2
    F := fun f j =>
      if f = 0 then (if j = 0 then 0 else if j = 1 then 1 else 2)
      else (if j = 0 then 2 else if j = 1 then 1 else 3)
    FF := fun f e =>
      if f = 0 ∧ e = 1 then 1 else if f = 1 ∧ e = 0 then 0 else -1
    FFi := fun f e =>
      if f = 0 ∧ e = 1 then 0 else if f = 1 ∧ e = 0 then 1 else -1 }

/-- One pass through the body `flipF(); flipE();` of the search loop. -/
def loopBody (m : Tables) (s : State) : State := flipE (flipF m s).2

/-- Range and mirror consistency of `FF`/`FFi`: every interior pair `(f,e)` of
the tables points to a face `FF(f,e)` inside the tables and a local edge
`FFi(f,e) ∈ {0,1,2}` that point back to `(f,e)`. -/
def MirrorConsistent (m : Tables) : Prop :=
  ∀ f e : Int, 0 ≤ f → f < (m.rows : Int) → 0 ≤ e → e ≤ 2 → m.FF f e ≠ -1 →
    (0 ≤ m.FF f e ∧ m.FF f e < (m.rows : Int) ∧ 0 ≤ m.FFi f e ∧ m.FFi f e ≤ 2) ∧
    m.FF (m.FF f e) (m.FFi f e) = f ∧ m.FFi (m.FF f e) (m.FFi f e) = e

/-- Vertex consistency of `F` with `FF`/`FFi`: the two faces across an interior
edge list the two vertices of that edge in opposite order. -/
def VertexConsistent (m : Tables) : Prop :=
  ∀ f e : Int, 0 ≤ f → f < (m.rows : Int) → 0 ≤ e → e ≤ 2 → m.FF f e ≠ -1 →
    m.F (m.FF f e) (m.FFi f e) = m.F f ((e + 1) % 3) ∧
    m.F (m.FF f e) ((m.FFi f e + 1) % 3) = m.F f e

/-- States met inside the search loop after at least one pass: a valid
position with reverse set and boundary cleared. -/
def LoopState (m : Tables) (s : State) : Prop :=
  ValidState m s ∧ s.reverse = true ∧ s.boundary = false

/-- The fan of four triangles `a = 0`, `b = 1`, `c = 2`, `d = 3` pictured
above `nextFE` in the source, counterclockwise around the vertex `v = 0`:
`a = (0,1,2)`, `b = (0,2,3)`, `c = (0,3,4)`, `d = (0,4,5)`.  The edges at `v`
shared by `a`-`b`, `b`-`c`, `c`-`d` are interior; edge 0 of `a` and edge 2 of
`d` are the two boundary edges at `v`; the four outer edges are boundary edges. -/
def fourFan : Tables :=
  { rows := 4
    F := fun f j => if j = 0 then 0 else if j = 1 then f + 1 else f + 2
    FF := fun f e =>
      if e = 2 then (if f = 0 then 1 else if f = 1 then 2 else if f = 2 then 3 else -1)
      else if e = 0 then (if f = 1 then 0 else if f = 2 then 1 else if f = 3 then 2 else -1)
      else -1
    FFi := fun f e =>
      if e = 2 then (if f = 0 ∨ f = 1 ∨ f = 2 then 0 else -1)
      else if e = 0 then (if f = 1 ∨ f = 2 ∨ f = 3 then 2 else -1)
      else -1 }

/-- Repeated calls: `times step n s` runs `step` on `s` `n` times in a row and
is `none` as soon as one call does not return. -/
def times (step : State → Option State) : Nat → State → Option State
  | 0, s => some s
  | n + 1, s => (times step n s).bind step

/-- The cursor motion of `nextFE` alone, dropping the returned flag. -/
def nextFEState (m : Tables) (fuel : Nat) (s : State) : Option State :=
  (nextFE m fuel s).map (fun r => r.2)


/-- States with both flags cleared on a valid position: the states met inside
the search loop when it was entered with reverse set, and the states of a walk
of `iterHE()` around a vertex. -/
def PlainState (m : Tables) (s : State) : Prop :=
  ValidState m s ∧ s.reverse = false ∧ s.boundary = false

/-- The loop `do { isBoundary = isBoundary || iter.isBoundaryE(); iter.iterHE(); }
while(iter != end && !isBoundary);` of `isBoundaryV`, with `endIt` for the
local `end`, run for at most the given number of iterations; `fuel` bounds the
search loop of each `iterHE()` call.  The result is the final `isBoundary`. -/
def isBoundaryVLoop (m : Tables) (fuel : Nat) (endIt : State) :
    Nat → State → Bool → Option Bool
  | 0, _, _ => none
  | n + 1, iter, isBoundary =>
    let isBoundary1 := isBoundary || isBoundaryE m iter
    match iterHE m fuel iter with
    | none => none
    | some iter1 =>
      if iter1 != endIt && !isBoundary1 then
        isBoundaryVLoop m fuel endIt n iter1 isBoundary1
      else some isBoundary1

/-- The scratch cursor of `isBoundaryV` when its loop starts: the state itself,
after one `flipHE()` if `reverse != boundary`. -/
def normalized (m : Tables) (s : State) : State :=
  if s.reverse != s.boundary then flipHE m s else s

/-- Method `isBoundaryV`; `fuel` bounds both the iterations of its own loop
and the search loop of each `iterHE()` call. -/
def isBoundaryV (m : Tables) (fuel : Nat) (s : State) : Option Bool :=
  isBoundaryVLoop m fuel (normalized m s) fuel (normalized m s) false

/-- A matrix given by its rows; a coefficient outside the rows is `-1`. -/
def tableOf (rows : List (List Int)) (i j : Int) : Int :=
  if 0 ≤ i ∧ 0 ≤ j then ((rows.getD i.toNat []).getD j.toNat (-1)) else -1

/-- The 3 x 3 grid of vertices `3 * row + col` triangulated with one diagonal
per square: 8 triangles, vertex 4 in the middle with 6 incident triangles, the
other 8 vertices on the border.  `FF` and `FFi` are its triangle-triangle
adjacency (edge `e` of a face joins its vertices `e` and `(e+1)%3`). -/
def grid3 : Tables :=
  { rows := 8
    F := tableOf [[0, 1, 4], [0, 4, 3], [1, 2, 5], [1, 5, 4],
                  [3, 4, 7], [3, 7, 6], [4, 5, 8], [4, 8, 7]]
    FF := tableOf [[-1, 3, 1], [0, 4, -1], [-1, -1, 3], [2, 6, 0],
                   [1, 7, 5], [4, -1, -1], [3, -1, 7], [6, -1, 4]]
    FFi := tableOf [[-1, 2, 0], [2, 0, -1], [-1, -1, 0], [2, 0, 1],
                    [1, 2, 0], [2, -1, -1], [1, -1, 0], [2, -1, 1]] }

/-- The corner (face, local vertex index) reached from the corner `c` by
crossing the edge of `c` that leaves its vertex: the same vertex seen from the
neighbouring face. -/
def cornerNext (m : Tables) (c : Int × Int) : Int × Int :=
  (m.FF c.1 c.2, (m.FFi c.1 c.2 + 1) % 3)

/-- The faces around the vertex `v` form one fan of `k` corners `c 0, ..., c (k-1)`:
these are pairwise different, they are exactly the valid (face, local index)
pairs holding `v`, and each one is followed by the next across the edge
leaving `v`.  A closed fan continues from the last corner to the first (`v` is
an interior vertex); an open fan has a boundary edge after its last corner and
before its first one (`v` is on the border). -/
def FanAt (m : Tables) (v : Int) (k : Nat) (c : Nat → Int × Int) (closed : Bool) : Prop :=
  0 < k ∧
  (∀ i, i < k → 0 ≤ (c i).1 ∧ (c i).1 < (m.rows : Int) ∧ 0 ≤ (c i).2 ∧ (c i).2 ≤ 2 ∧
    m.F (c i).1 (c i).2 = v) ∧
  (∀ i j, i < k → j < k → c i = c j → i = j) ∧
  (∀ f e : Int, 0 ≤ f → f < (m.rows : Int) → 0 ≤ e → e ≤ 2 → m.F f e = v →
    ∃ i, i < k ∧ c i = (f, e)) ∧
  (∀ i, i + 1 < k → m.FF (c i).1 (c i).2 ≠ -1 ∧ cornerNext m (c i) = c (i + 1)) ∧
  (closed = true →
    m.FF (c (k - 1)).1 (c (k - 1)).2 ≠ -1 ∧ cornerNext m (c (k - 1)) = c 0) ∧
  (closed = false →
    m.FF (c (k - 1)).1 (c (k - 1)).2 = -1 ∧ m.FF (c 0).1 (((c 0).2 + 2) % 3) = -1)

/-- The mesh is manifold at the vertex `v`: the faces around `v` form a single
closed or open fan. -/
def VertexManifoldAt (m : Tables) (v : Int) : Prop :=
  ∃ (k : Nat) (c : Nat → Int × Int) (closed : Bool), FanAt m v k c closed

/-- The cursor with both flags cleared on the corner `c` (face, local index). -/
def cornerState (c : Int × Int) : State :=
  { ei := c.2, fi := c.1, reverse := false, boundary := false }

/-- The closed fan of the six corners holding the middle vertex 4 of `grid3`,
in the order `iterHE()` walks them. -/
def grid3Ring (i : Nat) : Int × Int :=
  [(0, 2), (1, 1), (4, 1), (7, 0), (6, 0), (3, 2)].getD i (0, 2)

/-- The open fan of the three corners holding the border vertex 1 of `grid3`,
from the corner after a boundary edge to the corner before one. -/
def grid3Fan1 (i : Nat) : Int × Int :=
  [(0, 1), (3, 0), (2, 0)].getD i (0, 1)


/-- Tables in range: for every valid pair `(f,e)`, `FF(f,e)` is `-1` or a face
index, and `FFi(f,e)` is a local edge index whenever `FF(f,e)` is not `-1`. -/
def TablesInRange (m : Tables) : Prop :=
  ∀ f e : Int, 0 ≤ f → f < (m.rows : Int) → 0 ≤ e → e ≤ 2 →
    (-1 ≤ m.FF f e ∧ m.FF f e < (m.rows : Int)) ∧
    (m.FF f e ≠ -1 → 0 ≤ m.FFi f e ∧ m.FFi f e ≤ 2)

/-- The boundary flag is set only on a boundary edge. -/
def BoundaryFlagOK (m : Tables) (s : State) : Prop :=
  s.boundary = true → m.FF s.fi s.ei = -1

/-- States a cursor can be in without `setState`: the state after construction,
and the state after `init` (successful or not) or after any move that returned,
made from such a state. -/
inductive Reachable (m : Tables) : State → Prop where
  | construct (fi ei : Int) (r : Bool) : Reachable m (HalfEdgeIterator.construct fi ei r)
  | init (s : State) (faceIndex edgeIndex : Int) (r : Bool) :
      Reachable m s → Reachable m (HalfEdgeIterator.init m s faceIndex edgeIndex r).2
  | flipF (s : State) : Reachable m s → Reachable m (HalfEdgeIterator.flipF m s).2
  | flipE (s : State) : Reachable m s → Reachable m (HalfEdgeIterator.flipE s)
  | flipV (s : State) : Reachable m s → Reachable m (HalfEdgeIterator.flipV s)
  | flipHE (s : State) : Reachable m s → Reachable m (HalfEdgeIterator.flipHE m s)
  | nextHE (s : State) (fuel : Nat) (t : State) :
      Reachable m s → HalfEdgeIterator.nextHE m fuel s = some t → Reachable m t
  | iterHE (s : State) (fuel : Nat) (t : State) :
      Reachable m s → HalfEdgeIterator.iterHE m fuel s = some t → Reachable m t
  | nextFE (s : State) (fuel : Nat) (r : Bool × State) :
      Reachable m s → HalfEdgeIterator.nextFE m fuel s = some r → Reachable m r.2

/-- The sequence the spec words give for `nextHE()` on a virtual boundary
position with reverse set: `flipV()`, then `flipF(); flipE();` repeated until
the current edge is a boundary edge, then `flipHE()`, then `flipV()` again. -/
def nextHEReversedSpec (m : Tables) (fuel : Nat) (s : State) : Option State :=
  (searchLoop m fuel (flipV s)).map (fun t => flipV (flipHE m t))


/-! ## Auxiliary facts -/

theorem tmod_succ_of_valid (e : Int) (h0 : 0 ≤ e) (h2 : e ≤ 2) :
    Int.tmod (e + 1) 3 = (e + 1) % 3 := by
  interval_cases e <;> decide

theorem tmod_add_two_of_valid (e : Int) (h0 : 0 ≤ e) (h2 : e ≤ 2) :
    Int.tmod (e + 2) 3 = (e + 2) % 3 := by
  interval_cases e <;> decide

theorem flipF_of_boundary (m : Tables) (s : State) (h : m.FF s.fi s.ei = -1) :
    flipF m s = (false, s) := by
  simp [flipF, Fif, h]

theorem flipF_of_interior (m : Tables) (s : State) (h : m.FF s.fi s.ei ≠ -1) :
    flipF m s =
      (true, { ei := m.FFi s.fi s.ei, fi := m.FF s.fi s.ei, reverse := !s.reverse,
               boundary := s.boundary }) := by
  simp [flipF, Fif, h]

theorem tmod_add_two_range (e : Int) (h0 : 0 ≤ e) (h2 : e ≤ 2) :
    0 ≤ Int.tmod (e + 2) 3 ∧ Int.tmod (e + 2) 3 ≤ 2 ∧
    Int.tmod (Int.tmod (e + 2) 3 + 1) 3 = e := by
  interval_cases e <;> decide

theorem tmod_add_two_inj (a b : Int) (ha0 : 0 ≤ a) (ha2 : a ≤ 2) (hb0 : 0 ≤ b)
    (hb2 : b ≤ 2) (h : Int.tmod (a + 2) 3 = Int.tmod (b + 2) 3) : a = b := by
  interval_cases a <;> interval_cases b <;> first | rfl | (exfalso; revert h; decide)

theorem loopBody_entry (m : Tables) (s : State) (hr : s.reverse = false)
    (hb : m.FF s.fi s.ei = -1) :
    loopBody m s =
      { ei := Int.tmod (s.ei + 2) 3, fi := s.fi, reverse := true, boundary := false } := by
  simp [loopBody, flipF_of_boundary m s hb, flipE, Eif, hr]

theorem loopBody_interior (m : Tables) (s : State) (hr : s.reverse = true)
    (hb : m.FF s.fi s.ei ≠ -1) :
    loopBody m s =
      { ei := Int.tmod (m.FFi s.fi s.ei + 2) 3, fi := m.FF s.fi s.ei, reverse := true,
        boundary := false } := by
  simp [loopBody, flipF_of_interior m s hb, flipE, Eif, hr]

theorem isBoundaryE_eq_false_iff (m : Tables) (s : State) :
    isBoundaryE m s = false ↔ m.FF s.fi s.ei ≠ -1 := by
  simp [isBoundaryE]

theorem isBoundaryE_eq_true_iff (m : Tables) (s : State) :
    isBoundaryE m s = true ↔ m.FF s.fi s.ei = -1 := by
  simp [isBoundaryE]

/-- The search loop returns the first state of the orbit of `loopBody` that sits
on a boundary edge, when the budget reaches that far. -/
theorem searchLoop_eq_first (m : Tables) :
    ∀ (fuel : Nat) (s : State) (k : Nat), 1 ≤ k → k ≤ fuel →
      isBoundaryE m ((loopBody m)^[k] s) = true →
      (∀ i, 1 ≤ i → i < k → isBoundaryE m ((loopBody m)^[i] s) = false) →
      searchLoop m fuel s = some ((loopBody m)^[k] s) := by
  intro fuel
  induction fuel with
  | zero => intro s k h1 h2; omega
  | succ n ih =>
    intro s k h1 h2 hk hlt
    obtain ⟨j, rfl⟩ : ∃ j, k = j + 1 := ⟨k - 1, by omega⟩
    rw [Function.iterate_succ_apply] at hk ⊢
    by_cases hj : j = 0
    · subst hj
      simp only [Function.iterate_zero, id_eq] at hk ⊢
      simp only [searchLoop]
      rw [show flipE (flipF m s).2 = loopBody m s from rfl, if_pos hk]
    · have h1f : isBoundaryE m (loopBody m s) = false := by
        have := hlt 1 (le_refl 1) (by omega)
        simpa using this
      simp only [searchLoop]
      rw [show flipE (flipF m s).2 = loopBody m s from rfl, h1f]
      simp only [Bool.false_eq_true, if_false]
      apply ih (loopBody m s) j (by omega) (by omega) hk
      intro i hi1 hij
      have := hlt (i + 1) (by omega) (by omega)
      rwa [Function.iterate_succ_apply] at this

/-- A larger budget does not change a result already obtained. -/
theorem searchLoop_mono (m : Tables) :
    ∀ (fuel : Nat) (s t : State), searchLoop m fuel s = some t →
      ∀ fuel2, fuel ≤ fuel2 → searchLoop m fuel2 s = some t := by
  intro fuel
  induction fuel with
  | zero => intro s t h; simp [searchLoop] at h
  | succ n ih =>
    intro s t h fuel2 hle
    obtain ⟨j, rfl⟩ : ∃ j, fuel2 = j + 1 := ⟨fuel2 - 1, by omega⟩
    simp only [searchLoop] at h ⊢
    by_cases hb : isBoundaryE m (flipE (flipF m s).2) = true
    · rw [if_pos hb] at h ⊢; exact h
    · rw [if_neg hb] at h ⊢
      exact ih _ _ h j (by omega)

/-- The first pass of the search loop, entered on a boundary edge with reverse
cleared, stays in the face and lands in a loop state. -/
theorem loopState_entry (m : Tables) (s : State) (hv : ValidState m s)
    (hr : s.reverse = false) (hb : m.FF s.fi s.ei = -1) :
    LoopState m (loopBody m s) := by
  obtain ⟨hf0, hf1, he0, he2⟩ := hv
  rw [loopBody_entry m s hr hb]
  have ht := tmod_add_two_range s.ei he0 he2
  exact ⟨⟨hf0, hf1, ht.1, ht.2.1⟩, rfl, rfl⟩

/-- A pass of the search loop from a loop state on an interior edge lands in a
loop state again. -/
theorem loopState_step (m : Tables) (hm : MirrorConsistent m) (s : State)
    (hs : LoopState m s) (hb : m.FF s.fi s.ei ≠ -1) :
    LoopState m (loopBody m s) := by
  obtain ⟨⟨hf0, hf1, he0, he2⟩, hr, _⟩ := hs
  obtain ⟨⟨hg0, hg1, hj0, hj2⟩, _, _⟩ := hm s.fi s.ei hf0 hf1 he0 he2 hb
  rw [loopBody_interior m s hr hb]
  have ht := tmod_add_two_range (m.FFi s.fi s.ei) hj0 hj2
  exact ⟨⟨hg0, hg1, ht.1, ht.2.1⟩, rfl, rfl⟩

/-- As long as the orbit has met interior edges only, it consists of loop states. -/
theorem loopState_iterate (m : Tables) (hm : MirrorConsistent m) (s : State)
    (hv : ValidState m s) (hr : s.reverse = false) (hb : m.FF s.fi s.ei = -1) :
    ∀ k : Nat, (∀ i, 1 ≤ i → i ≤ k → isBoundaryE m ((loopBody m)^[i] s) = false) →
      LoopState m ((loopBody m)^[k + 1] s) := by
  intro k
  induction k with
  | zero =>
    intro _
    simpa using loopState_entry m s hv hr hb
  | succ n ih =>
    intro h
    have hn := ih (fun i h1 h2 => h i h1 (by omega))
    rw [Function.iterate_succ_apply']
    exact loopState_step m hm _ hn
      ((isBoundaryE_eq_false_iff m _).1 (h (n + 1) (by omega) (le_refl _)))

/-- On mirror-consistent tables a pass of the search loop is injective on loop
states that sit on interior edges. -/
theorem loopBody_injective (m : Tables) (hm : MirrorConsistent m) (a b : State)
    (ha : LoopState m a) (hb : LoopState m b) (hai : m.FF a.fi a.ei ≠ -1)
    (hbi : m.FF b.fi b.ei ≠ -1) (h : loopBody m a = loopBody m b) : a = b := by
  obtain ⟨⟨af0, af1, ae0, ae2⟩, ar, ab⟩ := ha
  obtain ⟨⟨bf0, bf1, be0, be2⟩, br, bb⟩ := hb
  obtain ⟨⟨_, _, aj0, aj2⟩, amf, ame⟩ := hm a.fi a.ei af0 af1 ae0 ae2 hai
  obtain ⟨⟨_, _, bj0, bj2⟩, bmf, bme⟩ := hm b.fi b.ei bf0 bf1 be0 be2 hbi
  rw [loopBody_interior m a ar hai, loopBody_interior m b br hbi] at h
  have h1 : Int.tmod (m.FFi a.fi a.ei + 2) 3 = Int.tmod (m.FFi b.fi b.ei + 2) 3 :=
    congrArg State.ei h
  have h2 : m.FF a.fi a.ei = m.FF b.fi b.ei := congrArg State.fi h
  have h3 : m.FFi a.fi a.ei = m.FFi b.fi b.ei :=
    tmod_add_two_inj _ _ aj0 aj2 bj0 bj2 h1
  have hf : a.fi = b.fi := by rw [← amf, ← bmf, h2, h3]
  have he : a.ei = b.ei := by rw [← ame, ← bme, h2, h3]
  cases a; cases b
  simp only at hf he ar br ab bb
  simp [hf, he, ar, br, ab, bb]

/-- The state after the first pass is not reached again from an interior loop
state: its predecessor edge is the boundary edge the loop was entered on. -/
theorem loopBody_entry_ne (m : Tables) (hm : MirrorConsistent m) (s a : State)
    (hv : ValidState m s) (hr : s.reverse = false) (hb : m.FF s.fi s.ei = -1)
    (ha : LoopState m a) (hai : m.FF a.fi a.ei ≠ -1) :
    loopBody m s ≠ loopBody m a := by
  intro h
  obtain ⟨_, _, he0, he2⟩ := hv
  obtain ⟨⟨af0, af1, ae0, ae2⟩, ar, _⟩ := ha
  obtain ⟨⟨_, _, aj0, aj2⟩, amf, _⟩ := hm a.fi a.ei af0 af1 ae0 ae2 hai
  rw [loopBody_entry m s hr hb, loopBody_interior m a ar hai] at h
  have h1 : Int.tmod (s.ei + 2) 3 = Int.tmod (m.FFi a.fi a.ei + 2) 3 :=
    congrArg State.ei h
  have h2 : s.fi = m.FF a.fi a.ei := congrArg State.fi h
  have h3 : s.ei = m.FFi a.fi a.ei := tmod_add_two_inj _ _ he0 he2 aj0 aj2 h1
  rw [← h2, ← h3, hb] at amf
  omega

/-- Two states of the orbit at different positions cannot coincide while the
orbit has met interior edges only. -/
theorem orbit_no_repeat (m : Tables) (hm : MirrorConsistent m) (s : State)
    (hv : ValidState m s) (hr : s.reverse = false) (hb : m.FF s.fi s.ei = -1) (N : Nat)
    (hall : ∀ i, 1 ≤ i → i ≤ N → isBoundaryE m ((loopBody m)^[i] s) = false) :
    ∀ i d : Nat, 1 ≤ d → i + d ≤ N →
      (loopBody m)^[i + 1] s ≠ (loopBody m)^[i + d + 1] s := by
  have hloop : ∀ k, k ≤ N → LoopState m ((loopBody m)^[k + 1] s) := fun k hk =>
    loopState_iterate m hm s hv hr hb k (fun i h1 h2 => hall i h1 (le_trans h2 hk))
  have hint : ∀ k, 1 ≤ k → k ≤ N →
      m.FF ((loopBody m)^[k] s).fi ((loopBody m)^[k] s).ei ≠ -1 := fun k h1 h2 =>
    (isBoundaryE_eq_false_iff m _).1 (hall k h1 h2)
  intro i
  induction i with
  | zero =>
    intro d hd hN h
    obtain ⟨c, rfl⟩ : ∃ c, d = c + 1 := ⟨d - 1, by omega⟩
    have hc := hloop c (by omega)
    rw [Nat.zero_add, Nat.zero_add, Function.iterate_succ_apply' (loopBody m) (c + 1)] at h
    simp only [Function.iterate_one] at h
    exact loopBody_entry_ne m hm s _ hv hr hb hc (hint (c + 1) (by omega) (by omega)) h
  | succ n ih =>
    intro d hd hN h
    rw [Function.iterate_succ_apply' (loopBody m) (n + 1),
      show n + 1 + d + 1 = (n + d + 1) + 1 from by omega,
      Function.iterate_succ_apply' (loopBody m) (n + d + 1)] at h
    have hEq := loopBody_injective m hm _ _ (hloop n (by omega)) (hloop (n + d) (by omega))
      (hint (n + 1) (by omega) (by omega)) (hint (n + d + 1) (by omega) (by omega)) h
    exact ih d hd (by omega) hEq

/-- Termination of the search loop: entered on a boundary edge of
mirror-consistent tables with reverse cleared, the orbit of `loopBody` meets a
boundary edge within `3 * F.rows()` passes. -/
theorem exists_boundary_within (m : Tables) (hm : MirrorConsistent m) (s : State)
    (hv : ValidState m s) (hr : s.reverse = false) (hb : m.FF s.fi s.ei = -1) :
    ∃ k, 1 ≤ k ∧ k ≤ 3 * m.rows ∧ isBoundaryE m ((loopBody m)^[k] s) = true := by
  by_contra hne
  have hall : ∀ i, 1 ≤ i → i ≤ 3 * m.rows →
      isBoundaryE m ((loopBody m)^[i] s) = false := by
    intro i h1 h2
    by_contra hc
    exact hne ⟨i, h1, h2, by simpa using hc⟩
  have hloop : ∀ k, k ≤ 3 * m.rows → LoopState m ((loopBody m)^[k + 1] s) := fun k hk =>
    loopState_iterate m hm s hv hr hb k (fun i h1 h2 => hall i h1 (le_trans h2 hk))
  have hrep := orbit_no_repeat m hm s hv hr hb (3 * m.rows) hall
  have hmaps : ∀ k ∈ Finset.range (3 * m.rows + 1),
      (((loopBody m)^[k + 1] s).fi.toNat, ((loopBody m)^[k + 1] s).ei.toNat) ∈
        Finset.range m.rows ×ˢ Finset.range 3 := by
    intro k hk
    have hk2 : k ≤ 3 * m.rows := Nat.lt_succ_iff.1 (Finset.mem_range.1 hk)
    obtain ⟨⟨hf0, hf1, he0, he2⟩, _, _⟩ := hloop k hk2
    simp only [Finset.mem_product, Finset.mem_range]
    constructor <;> omega
  have hcard : (Finset.range m.rows ×ˢ Finset.range 3).card <
      (Finset.range (3 * m.rows + 1)).card := by
    simp only [Finset.card_product, Finset.card_range]
    omega
  obtain ⟨i, hi, j, hj, hij, hg⟩ :=
    Finset.exists_ne_map_eq_of_card_lt_of_maps_to hcard hmaps
  have hi2 : i ≤ 3 * m.rows := Nat.lt_succ_iff.1 (Finset.mem_range.1 hi)
  have hj2 : j ≤ 3 * m.rows := Nat.lt_succ_iff.1 (Finset.mem_range.1 hj)
  have hstate : (loopBody m)^[i + 1] s = (loopBody m)^[j + 1] s := by
    obtain ⟨⟨af0, _, ae0, _⟩, ar, ab⟩ := hloop i hi2
    obtain ⟨⟨bf0, _, be0, _⟩, br, bb⟩ := hloop j hj2
    have hfi : ((loopBody m)^[i + 1] s).fi = ((loopBody m)^[j + 1] s).fi := by
      have := congrArg Prod.fst hg
      simp only at this
      omega
    have hei : ((loopBody m)^[i + 1] s).ei = ((loopBody m)^[j + 1] s).ei := by
      have := congrArg Prod.snd hg
      simp only at this
      omega
    generalize (loopBody m)^[i + 1] s = a at *
    generalize (loopBody m)^[j + 1] s = b at *
    cases a; cases b
    simp only at hfi hei ar br ab bb
    simp [hfi, hei, ar, br, ab, bb]
  rcases Nat.lt_or_gt_of_ne hij with hlt | hgt
  · obtain ⟨d, rfl⟩ : ∃ d, j = i + d := ⟨j - i, by omega⟩
    exact hrep i d (by omega) hj2 hstate
  · obtain ⟨d, rfl⟩ : ∃ d, i = j + d := ⟨i - j, by omega⟩
    exact hrep j d (by omega) hi2 hstate.symm

/-- Total correctness of the search loop on mirror-consistent tables: with a
budget of at least `3 * F.rows()` it returns the first state of the orbit on a
boundary edge, and that state is a loop state. -/
theorem searchLoop_terminates (m : Tables) (hm : MirrorConsistent m) (s : State)
    (hv : ValidState m s) (hr : s.reverse = false) (hb : m.FF s.fi s.ei = -1)
    (fuel : Nat) (hfuel : 3 * m.rows ≤ fuel) :
    ∃ k, 1 ≤ k ∧ k ≤ 3 * m.rows ∧
      searchLoop m fuel s = some ((loopBody m)^[k] s) ∧
      isBoundaryE m ((loopBody m)^[k] s) = true ∧
      (∀ i, 1 ≤ i → i < k → isBoundaryE m ((loopBody m)^[i] s) = false) ∧
      LoopState m ((loopBody m)^[k] s) := by
  classical
  have hex : ∃ k, 1 ≤ k ∧ k ≤ 3 * m.rows ∧ isBoundaryE m ((loopBody m)^[k] s) = true :=
    exists_boundary_within m hm s hv hr hb
  obtain ⟨h1, h2, h3⟩ := Nat.find_spec hex
  have hmin : ∀ i, 1 ≤ i → i < Nat.find hex →
      isBoundaryE m ((loopBody m)^[i] s) = false := by
    intro i hi1 hilt
    by_contra hc
    exact Nat.find_min hex hilt ⟨hi1, by omega, by simpa using hc⟩
  refine ⟨Nat.find hex, h1, h2, ?_, h3, hmin, ?_⟩
  · exact searchLoop_eq_first m fuel s _ h1 (le_trans h2 hfuel) h3 hmin
  · obtain ⟨c, hc⟩ : ∃ c, Nat.find hex = c + 1 := ⟨Nat.find hex - 1, by omega⟩
    rw [hc]
    exact loopState_iterate m hm s hv hr hb c (fun i hi1 hi2 => hmin i hi1 (by omega))

/-- After the first pass of the search loop the active vertex is the vertex
`F(fi, ei)` of the boundary edge the loop was entered on. -/
theorem Vi_loopBody_entry (m : Tables) (s : State) (hv : ValidState m s)
    (hr : s.reverse = false) (hb : m.FF s.fi s.ei = -1) :
    Vi m (loopBody m s) = m.F s.fi s.ei := by
  obtain ⟨_, _, he0, he2⟩ := hv
  rw [loopBody_entry m s hr hb]
  simp [Vi, Vii, (tmod_add_two_range s.ei he0 he2).2.2]

/-- On vertex-consistent tables a pass of the search loop from a loop state on
an interior edge keeps the active vertex. -/
theorem Vi_loopBody_step (m : Tables) (hm : MirrorConsistent m)
    (hvc : VertexConsistent m) (a : State) (ha : LoopState m a)
    (hai : m.FF a.fi a.ei ≠ -1) :
    Vi m (loopBody m a) = Vi m a := by
  obtain ⟨⟨af0, af1, ae0, ae2⟩, ar, _⟩ := ha
  obtain ⟨⟨_, _, aj0, aj2⟩, _, _⟩ := hm a.fi a.ei af0 af1 ae0 ae2 hai
  obtain ⟨hv1, _⟩ := hvc a.fi a.ei af0 af1 ae0 ae2 hai
  rw [loopBody_interior m a ar hai]
  simp [Vi, Vii, ar, (tmod_add_two_range (m.FFi a.fi a.ei) aj0 aj2).2.2, hv1,
    tmod_succ_of_valid a.ei ae0 ae2]

/-- The active vertex is constant along the orbit of the search loop while the
orbit has met interior edges only. -/
theorem Vi_iterate (m : Tables) (hm : MirrorConsistent m) (hvc : VertexConsistent m)
    (s : State) (hv : ValidState m s) (hr : s.reverse = false)
    (hb : m.FF s.fi s.ei = -1) :
    ∀ k : Nat, (∀ i, 1 ≤ i → i ≤ k → isBoundaryE m ((loopBody m)^[i] s) = false) →
      Vi m ((loopBody m)^[k + 1] s) = m.F s.fi s.ei := by
  intro k
  induction k with
  | zero =>
    intro _
    simpa using Vi_loopBody_entry m s hv hr hb
  | succ n ih =>
    intro h
    have hn := ih (fun i h1 h2 => h i h1 (by omega))
    have hl := loopState_iterate m hm s hv hr hb n (fun i h1 h2 => h i h1 (by omega))
    rw [Function.iterate_succ_apply', Vi_loopBody_step m hm hvc _ hl
      ((isBoundaryE_eq_false_iff m _).1 (h (n + 1) (by omega) (le_refl _))), hn]

/-- The search loop, entered on a boundary edge with reverse cleared, returns a
loop state on a boundary edge whose active vertex is `F(fi, ei)` of the entry. -/
theorem searchLoop_result (m : Tables) (hm : MirrorConsistent m)
    (hvc : VertexConsistent m) (s : State) (hv : ValidState m s)
    (hr : s.reverse = false) (hb : m.FF s.fi s.ei = -1)
    (fuel : Nat) (hfuel : 3 * m.rows ≤ fuel) :
    ∃ t, searchLoop m fuel s = some t ∧ LoopState m t ∧ m.FF t.fi t.ei = -1 ∧
      Vi m t = m.F s.fi s.ei := by
  obtain ⟨k, h1, _, hres, hbd, hmin, hls⟩ :=
    searchLoop_terminates m hm s hv hr hb fuel hfuel
  refine ⟨_, hres, hls, (isBoundaryE_eq_true_iff m _).1 hbd, ?_⟩
  obtain ⟨c, rfl⟩ : ∃ c, k = c + 1 := ⟨k - 1, by omega⟩
  exact Vi_iterate m hm hvc s hv hr hb c (fun i hi1 hi2 => hmin i hi1 (by omega))

theorem tmod_succ_range (e : Int) (h0 : 0 ≤ e) (h2 : e ≤ 2) :
    0 ≤ Int.tmod (e + 1) 3 ∧ Int.tmod (e + 1) 3 ≤ 2 := by
  interval_cases e <;> decide

theorem tmod_succ_inj (a b : Int) (ha0 : 0 ≤ a) (ha2 : a ≤ 2) (hb0 : 0 ≤ b)
    (hb2 : b ≤ 2) (h : Int.tmod (a + 1) 3 = Int.tmod (b + 1) 3) : a = b := by
  interval_cases a <;> interval_cases b <;> first | rfl | (exfalso; revert h; decide)

theorem loopBody_entry_rev (m : Tables) (s : State) (hr : s.reverse = true)
    (hb : m.FF s.fi s.ei = -1) :
    loopBody m s =
      { ei := Int.tmod (s.ei + 1) 3, fi := s.fi, reverse := false, boundary := false } := by
  simp [loopBody, flipF_of_boundary m s hb, flipE, Eif, hr]

theorem loopBody_interior_rev (m : Tables) (s : State) (hr : s.reverse = false)
    (hb : m.FF s.fi s.ei ≠ -1) :
    loopBody m s =
      { ei := Int.tmod (m.FFi s.fi s.ei + 1) 3, fi := m.FF s.fi s.ei, reverse := false,
        boundary := false } := by
  simp [loopBody, flipF_of_interior m s hb, flipE, Eif, hr]

/-- The first pass of the search loop, entered on a boundary edge with reverse
set, stays in the face and lands in a plain state. -/
theorem loopState_entry_rev (m : Tables) (s : State) (hv : ValidState m s)
    (hr : s.reverse = true) (hb : m.FF s.fi s.ei = -1) :
    PlainState m (loopBody m s) := by
  obtain ⟨hf0, hf1, he0, he2⟩ := hv
  rw [loopBody_entry_rev m s hr hb]
  have ht := tmod_succ_range s.ei he0 he2
  exact ⟨⟨hf0, hf1, ht.1, ht.2⟩, rfl, rfl⟩

/-- A pass of the search loop from a plain state on an interior edge lands in a
plain state again. -/
theorem loopState_step_rev (m : Tables) (hm : MirrorConsistent m) (s : State)
    (hs : PlainState m s) (hb : m.FF s.fi s.ei ≠ -1) :
    PlainState m (loopBody m s) := by
  obtain ⟨⟨hf0, hf1, he0, he2⟩, hr, _⟩ := hs
  obtain ⟨⟨hg0, hg1, hj0, hj2⟩, _, _⟩ := hm s.fi s.ei hf0 hf1 he0 he2 hb
  rw [loopBody_interior_rev m s hr hb]
  have ht := tmod_succ_range (m.FFi s.fi s.ei) hj0 hj2
  exact ⟨⟨hg0, hg1, ht.1, ht.2⟩, rfl, rfl⟩

/-- As long as the orbit has met interior edges only, it consists of plain states. -/
theorem loopState_iterate_rev (m : Tables) (hm : MirrorConsistent m) (s : State)
    (hv : ValidState m s) (hr : s.reverse = true) (hb : m.FF s.fi s.ei = -1) :
    ∀ k : Nat, (∀ i, 1 ≤ i → i ≤ k → isBoundaryE m ((loopBody m)^[i] s) = false) →
      PlainState m ((loopBody m)^[k + 1] s) := by
  intro k
  induction k with
  | zero =>
    intro _
    simpa using loopState_entry_rev m s hv hr hb
  | succ n ih =>
    intro h
    have hn := ih (fun i h1 h2 => h i h1 (by omega))
    rw [Function.iterate_succ_apply']
    exact loopState_step_rev m hm _ hn
      ((isBoundaryE_eq_false_iff m _).1 (h (n + 1) (by omega) (le_refl _)))

/-- On mirror-consistent tables a pass of the search loop is injective on loop
states that sit on interior edges. -/
theorem loopBody_injective_rev (m : Tables) (hm : MirrorConsistent m) (a b : State)
    (ha : PlainState m a) (hb : PlainState m b) (hai : m.FF a.fi a.ei ≠ -1)
    (hbi : m.FF b.fi b.ei ≠ -1) (h : loopBody m a = loopBody m b) : a = b := by
  obtain ⟨⟨af0, af1, ae0, ae2⟩, ar, ab⟩ := ha
  obtain ⟨⟨bf0, bf1, be0, be2⟩, br, bb⟩ := hb
  obtain ⟨⟨_, _, aj0, aj2⟩, amf, ame⟩ := hm a.fi a.ei af0 af1 ae0 ae2 hai
  obtain ⟨⟨_, _, bj0, bj2⟩, bmf, bme⟩ := hm b.fi b.ei bf0 bf1 be0 be2 hbi
  rw [loopBody_interior_rev m a ar hai, loopBody_interior_rev m b br hbi] at h
  have h1 : Int.tmod (m.FFi a.fi a.ei + 1) 3 = Int.tmod (m.FFi b.fi b.ei + 1) 3 :=
    congrArg State.ei h
  have h2 : m.FF a.fi a.ei = m.FF b.fi b.ei := congrArg State.fi h
  have h3 : m.FFi a.fi a.ei = m.FFi b.fi b.ei :=
    tmod_succ_inj _ _ aj0 aj2 bj0 bj2 h1
  have hf : a.fi = b.fi := by rw [← amf, ← bmf, h2, h3]
  have he : a.ei = b.ei := by rw [← ame, ← bme, h2, h3]
  cases a; cases b
  simp only at hf he ar br ab bb
  simp [hf, he, ar, br, ab, bb]

/-- The state after the first pass is not reached again from an interior loop
state: its predecessor edge is the boundary edge the loop was entered on. -/
theorem loopBody_entry_ne_rev (m : Tables) (hm : MirrorConsistent m) (s a : State)
    (hv : ValidState m s) (hr : s.reverse = true) (hb : m.FF s.fi s.ei = -1)
    (ha : PlainState m a) (hai : m.FF a.fi a.ei ≠ -1) :
    loopBody m s ≠ loopBody m a := by
  intro h
  obtain ⟨_, _, he0, he2⟩ := hv
  obtain ⟨⟨af0, af1, ae0, ae2⟩, ar, _⟩ := ha
  obtain ⟨⟨_, _, aj0, aj2⟩, amf, _⟩ := hm a.fi a.ei af0 af1 ae0 ae2 hai
  rw [loopBody_entry_rev m s hr hb, loopBody_interior_rev m a ar hai] at h
  have h1 : Int.tmod (s.ei + 1) 3 = Int.tmod (m.FFi a.fi a.ei + 1) 3 :=
    congrArg State.ei h
  have h2 : s.fi = m.FF a.fi a.ei := congrArg State.fi h
  have h3 : s.ei = m.FFi a.fi a.ei := tmod_succ_inj _ _ he0 he2 aj0 aj2 h1
  rw [← h2, ← h3, hb] at amf
  omega

/-- Two states of the orbit at different positions cannot coincide while the
orbit has met interior edges only. -/
theorem orbit_no_repeat_rev (m : Tables) (hm : MirrorConsistent m) (s : State)
    (hv : ValidState m s) (hr : s.reverse = true) (hb : m.FF s.fi s.ei = -1) (N : Nat)
    (hall : ∀ i, 1 ≤ i → i ≤ N → isBoundaryE m ((loopBody m)^[i] s) = false) :
    ∀ i d : Nat, 1 ≤ d → i + d ≤ N →
      (loopBody m)^[i + 1] s ≠ (loopBody m)^[i + d + 1] s := by
  have hloop : ∀ k, k ≤ N → PlainState m ((loopBody m)^[k + 1] s) := fun k hk =>
    loopState_iterate_rev m hm s hv hr hb k (fun i h1 h2 => hall i h1 (le_trans h2 hk))
  have hint : ∀ k, 1 ≤ k → k ≤ N →
      m.FF ((loopBody m)^[k] s).fi ((loopBody m)^[k] s).ei ≠ -1 := fun k h1 h2 =>
    (isBoundaryE_eq_false_iff m _).1 (hall k h1 h2)
  intro i
  induction i with
  | zero =>
    intro d hd hN h
    obtain ⟨c, rfl⟩ : ∃ c, d = c + 1 := ⟨d - 1, by omega⟩
    have hc := hloop c (by omega)
    rw [Nat.zero_add, Nat.zero_add, Function.iterate_succ_apply' (loopBody m) (c + 1)] at h
    simp only [Function.iterate_one] at h
    exact loopBody_entry_ne_rev m hm s _ hv hr hb hc (hint (c + 1) (by omega) (by omega)) h
  | succ n ih =>
    intro d hd hN h
    rw [Function.iterate_succ_apply' (loopBody m) (n + 1),
      show n + 1 + d + 1 = (n + d + 1) + 1 from by omega,
      Function.iterate_succ_apply' (loopBody m) (n + d + 1)] at h
    have hEq := loopBody_injective_rev m hm _ _ (hloop n (by omega)) (hloop (n + d) (by omega))
      (hint (n + 1) (by omega) (by omega)) (hint (n + d + 1) (by omega) (by omega)) h
    exact ih d hd (by omega) hEq

/-- Pigeonhole on cursor positions: among `3 * F.rows() + 1` valid states with
the same two flags, two coincide. -/
theorem exists_repeat_of_valid (m : Tables) (r b : Bool) (q : Nat → State)
    (h : ∀ k, k ≤ 3 * m.rows →
      ValidState m (q k) ∧ (q k).reverse = r ∧ (q k).boundary = b) :
    ∃ i j, i < j ∧ j ≤ 3 * m.rows ∧ q i = q j := by
  have hmaps : ∀ k ∈ Finset.range (3 * m.rows + 1),
      ((q k).fi.toNat, (q k).ei.toNat) ∈ Finset.range m.rows ×ˢ Finset.range 3 := by
    intro k hk
    have hk2 : k ≤ 3 * m.rows := Nat.lt_succ_iff.1 (Finset.mem_range.1 hk)
    obtain ⟨⟨hf0, hf1, he0, he2⟩, _, _⟩ := h k hk2
    simp only [Finset.mem_product, Finset.mem_range]
    constructor <;> omega
  have hcard : (Finset.range m.rows ×ˢ Finset.range 3).card <
      (Finset.range (3 * m.rows + 1)).card := by
    simp only [Finset.card_product, Finset.card_range]
    omega
  obtain ⟨i, hi, j, hj, hij, hg⟩ :=
    Finset.exists_ne_map_eq_of_card_lt_of_maps_to hcard hmaps
  have hi2 : i ≤ 3 * m.rows := Nat.lt_succ_iff.1 (Finset.mem_range.1 hi)
  have hj2 : j ≤ 3 * m.rows := Nat.lt_succ_iff.1 (Finset.mem_range.1 hj)
  have hstate : q i = q j := by
    obtain ⟨⟨af0, _, ae0, _⟩, ar, ab⟩ := h i hi2
    obtain ⟨⟨bf0, _, be0, _⟩, br, bb⟩ := h j hj2
    have hfi : (q i).fi = (q j).fi := by
      have := congrArg Prod.fst hg
      simp only at this
      omega
    have hei : (q i).ei = (q j).ei := by
      have := congrArg Prod.snd hg
      simp only at this
      omega
    generalize q i = x at *
    generalize q j = y at *
    cases x; cases y
    simp only at hfi hei ar br ab bb
    simp [hfi, hei, ar, br, ab, bb]
  rcases Nat.lt_or_gt_of_ne hij with hlt | hgt
  · exact ⟨i, j, hlt, hj2, hstate⟩
  · exact ⟨j, i, hgt, hi2, hstate.symm⟩

/-- Termination of the search loop: entered on a boundary edge of
mirror-consistent tables with reverse set, the orbit of `loopBody` meets a
boundary edge within `3 * F.rows()` passes. -/
theorem exists_boundary_within_rev (m : Tables) (hm : MirrorConsistent m) (s : State)
    (hv : ValidState m s) (hr : s.reverse = true) (hb : m.FF s.fi s.ei = -1) :
    ∃ k, 1 ≤ k ∧ k ≤ 3 * m.rows ∧ isBoundaryE m ((loopBody m)^[k] s) = true := by
  by_contra hne
  have hall : ∀ i, 1 ≤ i → i ≤ 3 * m.rows →
      isBoundaryE m ((loopBody m)^[i] s) = false := by
    intro i h1 h2
    by_contra hc
    exact hne ⟨i, h1, h2, by simpa using hc⟩
  have hloop : ∀ k, k ≤ 3 * m.rows → PlainState m ((loopBody m)^[k + 1] s) := fun k hk =>
    loopState_iterate_rev m hm s hv hr hb k (fun i h1 h2 => hall i h1 (le_trans h2 hk))
  obtain ⟨i, j, hij, hj, hEq⟩ :=
    exists_repeat_of_valid m false false (fun k => (loopBody m)^[k + 1] s) hloop
  obtain ⟨d, rfl⟩ : ∃ d, j = i + d := ⟨j - i, by omega⟩
  exact orbit_no_repeat_rev m hm s hv hr hb (3 * m.rows) hall i d (by omega) hj hEq

/-- Total correctness of the search loop on mirror-consistent tables: with a
budget of at least `3 * F.rows()` it returns the first state of the orbit on a
boundary edge, and that state is a plain state. -/
theorem searchLoop_terminates_rev (m : Tables) (hm : MirrorConsistent m) (s : State)
    (hv : ValidState m s) (hr : s.reverse = true) (hb : m.FF s.fi s.ei = -1)
    (fuel : Nat) (hfuel : 3 * m.rows ≤ fuel) :
    ∃ k, 1 ≤ k ∧ k ≤ 3 * m.rows ∧
      searchLoop m fuel s = some ((loopBody m)^[k] s) ∧
      isBoundaryE m ((loopBody m)^[k] s) = true ∧
      (∀ i, 1 ≤ i → i < k → isBoundaryE m ((loopBody m)^[i] s) = false) ∧
      PlainState m ((loopBody m)^[k] s) := by
  classical
  have hex : ∃ k, 1 ≤ k ∧ k ≤ 3 * m.rows ∧ isBoundaryE m ((loopBody m)^[k] s) = true :=
    exists_boundary_within_rev m hm s hv hr hb
  obtain ⟨h1, h2, h3⟩ := Nat.find_spec hex
  have hmin : ∀ i, 1 ≤ i → i < Nat.find hex →
      isBoundaryE m ((loopBody m)^[i] s) = false := by
    intro i hi1 hilt
    by_contra hc
    exact Nat.find_min hex hilt ⟨hi1, by omega, by simpa using hc⟩
  refine ⟨Nat.find hex, h1, h2, ?_, h3, hmin, ?_⟩
  · exact searchLoop_eq_first m fuel s _ h1 (le_trans h2 hfuel) h3 hmin
  · obtain ⟨c, hc⟩ : ∃ c, Nat.find hex = c + 1 := ⟨Nat.find hex - 1, by omega⟩
    rw [hc]
    exact loopState_iterate_rev m hm s hv hr hb c (fun i hi1 hi2 => hmin i hi1 (by omega))

/-- Total correctness of the search loop on mirror-consistent tables, for
either value of reverse at its entry on a boundary edge: with a budget of at
least `3 * F.rows()` it returns the first state of the orbit of `loopBody` that
sits on a boundary edge, after at most `3 * F.rows()` passes, on a valid
position. -/
theorem searchLoop_total (m : Tables) (hm : MirrorConsistent m) (s : State)
    (hv : ValidState m s) (hb : m.FF s.fi s.ei = -1)
    (fuel : Nat) (hfuel : 3 * m.rows ≤ fuel) :
    ∃ k, 1 ≤ k ∧ k ≤ 3 * m.rows ∧
      searchLoop m fuel s = some ((loopBody m)^[k] s) ∧
      isBoundaryE m ((loopBody m)^[k] s) = true ∧
      (∀ i, 1 ≤ i → i < k → isBoundaryE m ((loopBody m)^[i] s) = false) ∧
      ValidState m ((loopBody m)^[k] s) := by
  cases hr : s.reverse
  · obtain ⟨k, h1, h2, h3, h4, h5, h6⟩ :=
      searchLoop_terminates m hm s hv hr hb fuel hfuel
    exact ⟨k, h1, h2, h3, h4, h5, h6.1⟩
  · obtain ⟨k, h1, h2, h3, h4, h5, h6⟩ :=
      searchLoop_terminates_rev m hm s hv hr hb fuel hfuel
    exact ⟨k, h1, h2, h3, h4, h5, h6.1⟩

/-- The result of `nextHE()` on a virtual boundary position of mirror- and
vertex-consistent tables: a virtual boundary position with the same reverse
flag, on the boundary edge `t` the search loop stopped at, whose end vertex
`F(t.fi, (t.ei+1)%3)` is the vertex `F(fi, ei)` the walk turned around. -/
theorem nextHE_of_boundary (m : Tables) (hm : MirrorConsistent m)
    (hvc : VertexConsistent m) (s : State) (hv : ValidState m s)
    (hb : s.boundary = true) (hbe : m.FF s.fi s.ei = -1)
    (fuel : Nat) (hfuel : 3 * m.rows ≤ fuel) :
    ∃ t, LoopState m t ∧ m.FF t.fi t.ei = -1 ∧ Vi m t = m.F s.fi s.ei ∧
      nextHE m fuel s =
        some { ei := t.ei, fi := t.fi, reverse := s.reverse, boundary := true } := by
  have hfin : ∀ t, LoopState m t → m.FF t.fi t.ei = -1 →
      flipHE m t = { ei := t.ei, fi := t.fi, reverse := true, boundary := true } := by
    intro t ht htb
    obtain ⟨_, tr, tb⟩ := ht
    simp [flipHE, flipF_of_boundary m t htb, tr, tb]
  cases hrev : s.reverse
  · obtain ⟨t, hres, hls, htb, hvi⟩ :=
      searchLoop_result m hm hvc s hv hrev hbe fuel hfuel
    refine ⟨t, hls, htb, hvi, ?_⟩
    simp [nextHE, hb, hrev, hres, hfin t hls htb, flipV]
  · have hv2 : ValidState m (flipV s) := hv
    have hr2 : (flipV s).reverse = false := by simp [flipV, hrev]
    obtain ⟨t, hres, hls, htb, hvi⟩ :=
      searchLoop_result m hm hvc (flipV s) hv2 hr2 hbe fuel hfuel
    refine ⟨t, hls, htb, hvi, ?_⟩
    simp [nextHE, hb, hrev, hres, hfin t hls htb]

/-- The active vertex of a state with reverse set. -/
theorem Vi_of_reverse (m : Tables) (e f : Int) (b : Bool) :
    Vi m { ei := e, fi := f, reverse := true, boundary := b } =
      m.F f (Int.tmod (e + 1) 3) := by
  simp [Vi, Vii]

/-- The active vertex of a state with reverse cleared. -/
theorem Vi_of_not_reverse (m : Tables) (e f : Int) (b : Bool) :
    Vi m { ei := e, fi := f, reverse := false, boundary := b } = m.F f e := by
  simp [Vi, Vii]

/-- The edge advance of the plain branch of `nextHE()` on a local edge index. -/
theorem next_edge_of_valid (e : Int) (h0 : 0 ≤ e) (h2 : e ≤ 2) :
    (if e = 2 then 0 else e + 1) = (e + 1) % 3 ∧
    (if e = 2 then 0 else e + 1) = Int.tmod (e + 1) 3 ∧
    0 ≤ (e + 1) % 3 ∧ (e + 1) % 3 ≤ 2 := by
  interval_cases e <;> decide

/-- A larger budget does not change a result of `nextFE()` already obtained. -/
theorem nextFE_mono (m : Tables) (fuel fuel2 : Nat) (s : State) (r : Bool × State)
    (h : nextFE m fuel s = some r) (hle : fuel ≤ fuel2) : nextFE m fuel2 s = some r := by
  unfold nextFE at h ⊢
  by_cases hb : isBoundaryE m s = true
  · rw [if_pos hb] at h ⊢
    cases hs : searchLoop m fuel s with
    | none => rw [hs] at h; simp at h
    | some t =>
      rw [hs] at h
      rw [searchLoop_mono m fuel s t hs fuel2 hle]
      exact h
  · rw [if_neg hb] at h ⊢
    exact h

/-- The tables `fourFan` are mirror-consistent. -/
theorem fourFan_mirrorConsistent : MirrorConsistent fourFan := by
  intro f e hf0 hf1 he0 he2 hne
  have hf1 : f < 4 := by simpa [fourFan] using hf1
  interval_cases f <;> interval_cases e <;> simp [fourFan] at hne ⊢

/-- The tables `fourFan` are vertex-consistent. -/
theorem fourFan_vertexConsistent : VertexConsistent fourFan := by
  intro f e hf0 hf1 he0 he2 hne
  have hf1 : f < 4 := by simpa [fourFan] using hf1
  interval_cases f <;> interval_cases e <;> simp [fourFan] at hne ⊢

/-- One `nextFE()` call on `fourFan` from the position in face `i` on the edge
arriving at `v`: it moves to the same position in face `(i+1) % 4` and reports
false exactly for `i = 3`, the wrap-around from `d` to `a`. -/
theorem nextFE_fourFan_step (fuel : Nat) (hfuel : 4 ≤ fuel) (i : Nat) (hi : i < 4) :
    nextFE fourFan fuel { ei := 2, fi := (i : Int), reverse := true, boundary := false } =
      some (decide (i ≠ 3),
        { ei := 2, fi := ((i + 1) % 4 : Nat), reverse := true, boundary := false }) := by
  apply nextFE_mono fourFan 4 fuel _ _ _ hfuel
  interval_cases i <;> decide

/-- Totality of `nextHE()` on mirror-consistent tables, from a valid state whose
boundary flag is set only on a boundary edge. -/
theorem nextHE_total (m : Tables) (hm : MirrorConsistent m) (s : State)
    (hv : ValidState m s) (hb : s.boundary = true → m.FF s.fi s.ei = -1)
    (fuel : Nat) (hfuel : 3 * m.rows ≤ fuel) :
    ∃ t, nextHE m fuel s = some t := by
  cases hbd : s.boundary
  · exact ⟨_, by simp only [nextHE, hbd]; rfl⟩
  · cases hr : s.reverse
    · obtain ⟨k, _, _, hres, _⟩ := searchLoop_total m hm s hv (hb hbd) fuel hfuel
      exact ⟨_, by simp only [nextHE, hbd, hr, if_true, Bool.false_eq_true, if_false, hres]; rfl⟩
    · have hv2 : ValidState m (flipV s) := hv
      obtain ⟨k, _, _, hres, _⟩ := searchLoop_total m hm (flipV s) hv2 (hb hbd) fuel hfuel
      exact ⟨_, by simp only [nextHE, hbd, hr, if_true, hres]; rfl⟩

/-- Totality of `iterHE()` on mirror-consistent tables, from a valid state whose
boundary flag is set only on a boundary edge. -/
theorem iterHE_total (m : Tables) (hm : MirrorConsistent m) (s : State)
    (hv : ValidState m s) (hb : s.boundary = true → m.FF s.fi s.ei = -1)
    (fuel : Nat) (hfuel : 3 * m.rows ≤ fuel) :
    ∃ t, iterHE m fuel s = some t := by
  by_cases hc : (s.reverse != s.boundary) = true
  · obtain ⟨t, ht⟩ := nextHE_total m hm s hv hb fuel hfuel
    exact ⟨_, by simp only [iterHE, hc, if_true, ht]; rfl⟩
  · by_cases hi : m.FF s.fi s.ei = -1
    · have hfl : flipHE m s =
          { ei := s.ei, fi := s.fi, reverse := s.reverse, boundary := !s.boundary } := by
        simp [flipHE, flipF_of_boundary m s hi]
      obtain ⟨t, ht⟩ := nextHE_total m hm (flipHE m s) (by rw [hfl]; exact hv)
        (by rw [hfl]; intro _; exact hi) fuel hfuel
      exact ⟨_, by simp only [iterHE, hc, if_false, ht]; rfl⟩
    · have hfl : (flipHE m s).boundary = false := by
        simp [flipHE, flipF_of_interior m s hi]
      exact ⟨_, by simp only [iterHE, hc, if_false, nextHE, hfl]; rfl⟩

/-- From a plain state on an interior edge of mirror-consistent tables,
`iterHE()` is one pass `flipF(); flipE();` and never enters a loop. -/
theorem iterHE_plain_interior (m : Tables) (hm : MirrorConsistent m) (s : State)
    (hs : PlainState m s) (hi : m.FF s.fi s.ei ≠ -1) (fuel : Nat) :
    iterHE m fuel s = some (loopBody m s) := by
  obtain ⟨⟨hf0, hf1, he0, he2⟩, hr, hb⟩ := hs
  obtain ⟨⟨_, _, hj0, hj2⟩, _, _⟩ := hm s.fi s.ei hf0 hf1 he0 he2 hi
  have hnj := next_edge_of_valid (m.FFi s.fi s.ei) hj0 hj2
  rw [loopBody_interior_rev m s hr hi]
  simp [iterHE, hr, hb, flipHE, flipF_of_interior m s hi, nextHE, flipV, hnj.2.1]

/-- Run of the loop of `isBoundaryV` along the orbit of `loopBody`: if the
first `N` states are not on a boundary edge and each `iterHE()` moves to the
next one without coming back to `endIt`, and at the state number `N` the call
`iterHE()` returns and either that state is on a boundary edge or the cursor
is back on `endIt`, then the loop stops there within `N + 1` iterations and
returns whether that state is on a boundary edge. -/
theorem isBoundaryVLoop_run (m : Tables) (fuel : Nat) (endIt : State) :
    ∀ (n : Nat) (iter : State) (N : Nat), N < n →
      (∀ i, i < N → isBoundaryE m ((loopBody m)^[i] iter) = false ∧
        iterHE m fuel ((loopBody m)^[i] iter) = some ((loopBody m)^[i + 1] iter) ∧
        (loopBody m)^[i + 1] iter ≠ endIt) →
      (∃ t, iterHE m fuel ((loopBody m)^[N] iter) = some t ∧
        (isBoundaryE m ((loopBody m)^[N] iter) = true ∨ t = endIt)) →
      isBoundaryVLoop m fuel endIt n iter false =
        some (isBoundaryE m ((loopBody m)^[N] iter)) := by
  intro n
  induction n with
  | zero => intro iter N h; omega
  | succ n ih =>
    intro iter N hN hpre hlast
    cases N with
    | zero =>
      obtain ⟨t, ht, hor⟩ := hlast
      simp only [Function.iterate_zero, id_eq] at ht hor ⊢
      simp only [isBoundaryVLoop, ht, Bool.false_or]
      rcases hor with hbd | heq
      · simp [hbd]
      · simp [heq]
    | succ N =>
      obtain ⟨h1, h2, h3⟩ := hpre 0 (by omega)
      simp only [Function.iterate_zero, id_eq, Nat.zero_add, Function.iterate_one] at h1 h2 h3
      simp only [isBoundaryVLoop, h2, Bool.false_or, h1]
      have hne : (loopBody m iter != endIt) = true := by simpa using h3
      simp only [hne, Bool.not_false, Bool.and_self, if_true]
      rw [Function.iterate_succ_apply]
      apply ih (loopBody m iter) N (by omega)
      · intro i hi
        have := hpre (i + 1) (by omega)
        simpa only [Function.iterate_succ_apply] using this
      · simpa only [Function.iterate_succ_apply] using hlast

/-- The orbit of `loopBody` from a plain state consists of plain states as long
as it has met interior edges only. -/
theorem plain_orbit_iterate (m : Tables) (hm : MirrorConsistent m) (s0 : State)
    (hs : PlainState m s0) :
    ∀ n : Nat, (∀ i, i < n → isBoundaryE m ((loopBody m)^[i] s0) = false) →
      PlainState m ((loopBody m)^[n] s0) := by
  intro n
  induction n with
  | zero => intro _; exact hs
  | succ k ih =>
    intro h
    rw [Function.iterate_succ_apply']
    exact loopState_step_rev m hm _ (ih (fun i hi => h i (by omega)))
      ((isBoundaryE_eq_false_iff m _).1 (h k (by omega)))

/-- A repetition in the orbit of `loopBody` from a plain state, met while all
edges so far were interior, can be moved back to the start of the orbit. -/
theorem plain_orbit_back (m : Tables) (hm : MirrorConsistent m) (s0 : State)
    (hs : PlainState m s0) (N : Nat)
    (hall : ∀ i, i < N → isBoundaryE m ((loopBody m)^[i] s0) = false) :
    ∀ i d : Nat, i + d ≤ N → (loopBody m)^[i] s0 = (loopBody m)^[i + d] s0 →
      s0 = (loopBody m)^[d] s0 := by
  intro i
  induction i with
  | zero =>
    intro d _ h
    simpa using h
  | succ k ih =>
    intro d hd h
    rw [Function.iterate_succ_apply' (loopBody m) k,
      show k + 1 + d = (k + d) + 1 from by omega,
      Function.iterate_succ_apply' (loopBody m) (k + d)] at h
    have hk := plain_orbit_iterate m hm s0 hs k (fun i hi => hall i (by omega))
    have hkd := plain_orbit_iterate m hm s0 hs (k + d) (fun i hi => hall i (by omega))
    have hEq := loopBody_injective_rev m hm _ _ hk hkd
      ((isBoundaryE_eq_false_iff m _).1 (hall k (by omega)))
      ((isBoundaryE_eq_false_iff m _).1 (hall (k + d) (by omega))) h
    exact ih d (by omega) hEq

/-- On mirror-consistent tables the orbit of `loopBody` from a plain state
meets a boundary edge or comes back to its start within `3 * F.rows()` passes. -/
theorem plain_orbit_returns (m : Tables) (hm : MirrorConsistent m) (s0 : State)
    (hs : PlainState m s0) :
    ∃ n, n < 3 * m.rows ∧
      (isBoundaryE m ((loopBody m)^[n] s0) = true ∨ (loopBody m)^[n + 1] s0 = s0) := by
  by_contra hne
  have hall : ∀ i, i < 3 * m.rows → isBoundaryE m ((loopBody m)^[i] s0) = false := by
    intro i hi
    by_contra hc
    exact hne ⟨i, hi, Or.inl (by simpa using hc)⟩
  have hplain : ∀ k, k ≤ 3 * m.rows → PlainState m ((loopBody m)^[k] s0) := fun k hk =>
    plain_orbit_iterate m hm s0 hs k (fun i hi => hall i (by omega))
  obtain ⟨i, j, hij, hj, hEq⟩ :=
    exists_repeat_of_valid m false false (fun k => (loopBody m)^[k] s0) hplain
  obtain ⟨d, rfl⟩ : ∃ d, j = i + (d + 1) := ⟨j - i - 1, by omega⟩
  have hback := plain_orbit_back m hm s0 hs (3 * m.rows) hall i (d + 1) hj hEq
  exact hne ⟨d, by omega, Or.inr hback.symm⟩

/-- The first place where the orbit of `loopBody` from a plain state meets a
boundary edge or comes back to its start. -/
theorem plain_orbit_first (m : Tables) (hm : MirrorConsistent m) (s0 : State)
    (hs : PlainState m s0) :
    ∃ N, N < 3 * m.rows ∧
      (∀ i, i < N → isBoundaryE m ((loopBody m)^[i] s0) = false ∧
        (loopBody m)^[i + 1] s0 ≠ s0) ∧
      (isBoundaryE m ((loopBody m)^[N] s0) = true ∨ (loopBody m)^[N + 1] s0 = s0) ∧
      (∀ i, i ≤ N → PlainState m ((loopBody m)^[i] s0)) := by
  classical
  have hex := plain_orbit_returns m hm s0 hs
  obtain ⟨h1, h2⟩ := Nat.find_spec hex
  have hmin : ∀ i, i < Nat.find hex → isBoundaryE m ((loopBody m)^[i] s0) = false ∧
      (loopBody m)^[i + 1] s0 ≠ s0 := by
    intro i hi
    have hn := Nat.find_min hex hi
    constructor
    · by_contra hc
      exact hn ⟨by omega, Or.inl (by simpa using hc)⟩
    · intro hc
      exact hn ⟨by omega, Or.inr hc⟩
  refine ⟨Nat.find hex, h1, hmin, h2, ?_⟩
  intro i hi
  exact plain_orbit_iterate m hm s0 hs i (fun k hk => (hmin k (by omega)).1)

/-- The loop of `isBoundaryV` started on a plain state of mirror-consistent
tables stops at the first place where the orbit of `loopBody` meets a boundary
edge or comes back to the start, and returns whether it met a boundary edge. -/
theorem isBoundaryVLoop_plain (m : Tables) (hm : MirrorConsistent m) (s0 : State)
    (hs : PlainState m s0) (fuel : Nat) (hfuel : 3 * m.rows ≤ fuel) :
    ∃ N, N < 3 * m.rows ∧
      (∀ i, i < N → isBoundaryE m ((loopBody m)^[i] s0) = false ∧
        (loopBody m)^[i + 1] s0 ≠ s0) ∧
      (isBoundaryE m ((loopBody m)^[N] s0) = true ∨ (loopBody m)^[N + 1] s0 = s0) ∧
      (∀ i, i ≤ N → PlainState m ((loopBody m)^[i] s0)) ∧
      isBoundaryVLoop m fuel s0 fuel s0 false =
        some (isBoundaryE m ((loopBody m)^[N] s0)) := by
  obtain ⟨N, hN, hpre, hlast, hplain⟩ := plain_orbit_first m hm s0 hs
  refine ⟨N, hN, hpre, hlast, hplain, ?_⟩
  apply isBoundaryVLoop_run m fuel s0 fuel s0 N (by omega)
  · intro i hi
    refine ⟨(hpre i hi).1, ?_, (hpre i hi).2⟩
    rw [Function.iterate_succ_apply']
    exact iterHE_plain_interior m hm _ (hplain i (by omega))
      ((isBoundaryE_eq_false_iff m _).1 (hpre i hi).1) fuel
  · by_cases hbd : isBoundaryE m ((loopBody m)^[N] s0) = true
    · obtain ⟨t, ht⟩ := iterHE_total m hm _ (hplain N (le_refl _)).1
        (by intro h; rw [(hplain N (le_refl _)).2.2] at h; exact absurd h (by decide))
        fuel hfuel
      exact ⟨t, ht, Or.inl hbd⟩
    · have hint : isBoundaryE m ((loopBody m)^[N] s0) = false := by simpa using hbd
      refine ⟨(loopBody m)^[N + 1] s0, ?_, Or.inr ?_⟩
      · rw [Function.iterate_succ_apply']
        exact iterHE_plain_interior m hm _ (hplain N (le_refl _))
          ((isBoundaryE_eq_false_iff m _).1 hint) fuel
      · rcases hlast with h | h
        · exact absurd h hbd
        · exact h

/-- Repeated calls along a sequence of states that each call moves forward in. -/
theorem times_of_steps (step : State → Option State) (q : Nat → State) :
    ∀ n : Nat, (∀ i, i < n → step (q i) = some (q (i + 1))) →
      times step n (q 0) = some (q n) := by
  intro n
  induction n with
  | zero => intro _; rfl
  | succ k ih =>
    intro h
    simp only [times, ih (fun i hi => h i (by omega)), Option.some_bind]
    exact h k (by omega)

/-- The scratch cursor of `isBoundaryV` at the start of its loop is either a
plain state, or a valid state with both flags set on a boundary edge. -/
theorem normalized_cases (m : Tables) (hm : MirrorConsistent m) (s : State)
    (hv : ValidState m s) (hb : s.boundary = true → m.FF s.fi s.ei = -1) :
    PlainState m (normalized m s) ∨
    (ValidState m (normalized m s) ∧ (normalized m s).reverse = true ∧
      (normalized m s).boundary = true ∧
      m.FF (normalized m s).fi (normalized m s).ei = -1) := by
  obtain ⟨e, f, r, b⟩ := s
  obtain ⟨hf0, hf1, he0, he2⟩ := hv
  simp only at hb hf0 hf1 he0 he2
  cases r <;> cases b
  · left
    exact ⟨⟨hf0, hf1, he0, he2⟩, rfl, rfl⟩
  · left
    have hi := hb rfl
    have : normalized m { ei := e, fi := f, reverse := false, boundary := true } =
        { ei := e, fi := f, reverse := false, boundary := false } := by
      simp [normalized, flipHE, flipF, Fif, hi]
    rw [this]
    exact ⟨⟨hf0, hf1, he0, he2⟩, rfl, rfl⟩
  · by_cases hi : m.FF f e = -1
    · right
      have : normalized m { ei := e, fi := f, reverse := true, boundary := false } =
          { ei := e, fi := f, reverse := true, boundary := true } := by
        simp [normalized, flipHE, flipF, Fif, hi]
      rw [this]
      exact ⟨⟨hf0, hf1, he0, he2⟩, rfl, rfl, hi⟩
    · left
      obtain ⟨⟨hg0, hg1, hj0, hj2⟩, _, _⟩ := hm f e hf0 hf1 he0 he2 hi
      have : normalized m { ei := e, fi := f, reverse := true, boundary := false } =
          { ei := m.FFi f e, fi := m.FF f e, reverse := false, boundary := false } := by
        simp [normalized, flipHE, flipF, Fif, hi]
      rw [this]
      exact ⟨⟨hg0, hg1, hj0, hj2⟩, rfl, rfl⟩
  · right
    exact ⟨⟨hf0, hf1, he0, he2⟩, rfl, rfl, hb rfl⟩

/-- On vertex-consistent tables the scratch cursor of `isBoundaryV` has the
active vertex of the state it was copied from. -/
theorem Vi_normalized (m : Tables) (hvc : VertexConsistent m)
    (s : State) (hv : ValidState m s) (hb : s.boundary = true → m.FF s.fi s.ei = -1) :
    Vi m (normalized m s) = Vi m s := by
  obtain ⟨e, f, r, b⟩ := s
  obtain ⟨hf0, hf1, he0, he2⟩ := hv
  simp only at hb hf0 hf1 he0 he2
  cases r <;> cases b
  · rfl
  · have hi := hb rfl
    simp [normalized, flipHE, flipF, Fif, hi, Vi, Vii]
  · by_cases hi : m.FF f e = -1
    · simp [normalized, flipHE, flipF, Fif, hi, Vi, Vii]
    · obtain ⟨hv1, _⟩ := hvc f e hf0 hf1 he0 he2 hi
      simp [normalized, flipHE, flipF, Fif, hi, Vi, Vii, hv1,
        tmod_succ_of_valid e he0 he2]
  · rfl

/-- The loop of `isBoundaryV` started with both flags set on a boundary edge
stops after its first iteration and returns true. -/
theorem isBoundaryVLoop_virtual (m : Tables) (hm : MirrorConsistent m) (s0 : State)
    (hv : ValidState m s0) (hbe : m.FF s0.fi s0.ei = -1)
    (fuel : Nat) (hfuel : 3 * m.rows ≤ fuel) (hpos : 0 < fuel) :
    isBoundaryE m s0 = true ∧ (∃ t, iterHE m fuel s0 = some t) ∧
    isBoundaryVLoop m fuel s0 fuel s0 false = some true := by
  have hbd : isBoundaryE m s0 = true := (isBoundaryE_eq_true_iff m s0).2 hbe
  obtain ⟨t, ht⟩ := iterHE_total m hm s0 hv (fun _ => hbe) fuel hfuel
  refine ⟨hbd, ⟨t, ht⟩, ?_⟩
  have := isBoundaryVLoop_run m fuel s0 fuel s0 0 hpos (by intro i hi; omega)
    ⟨t, by simpa using ht, Or.inl (by simpa using hbd)⟩
  simpa [hbd] using this

/-- The tables `grid3` are mirror-consistent. -/
theorem grid3_mirrorConsistent : MirrorConsistent grid3 := by
  intro f e hf0 hf1 he0 he2 hne
  have hf1 : f < 8 := by simpa [grid3] using hf1
  interval_cases f <;> interval_cases e <;> revert hne <;> decide

/-- The tables `grid3` are vertex-consistent. -/
theorem grid3_vertexConsistent : VertexConsistent grid3 := by
  intro f e hf0 hf1 he0 he2 hne
  have hf1 : f < 8 := by simpa [grid3] using hf1
  interval_cases f <;> interval_cases e <;> revert hne <;> decide

theorem emod_succ_inj (a b : Int) (ha0 : 0 ≤ a) (ha2 : a ≤ 2) (hb0 : 0 ≤ b)
    (hb2 : b ≤ 2) (h : (a + 1) % 3 = (b + 1) % 3) : a = b := by
  interval_cases a <;> interval_cases b <;> first | rfl | (exfalso; revert h; decide)

/-- One pass `flipF(); flipE();` from the plain state on a corner with an
interior leaving edge lands on the plain state of the next corner. -/
theorem loopBody_cornerState (m : Tables) (hm : MirrorConsistent m) (c : Int × Int)
    (hf0 : 0 ≤ c.1) (hf1 : c.1 < (m.rows : Int)) (he0 : 0 ≤ c.2) (he2 : c.2 ≤ 2)
    (hi : m.FF c.1 c.2 ≠ -1) :
    loopBody m (cornerState c) = cornerState (cornerNext m c) := by
  obtain ⟨⟨_, _, hj0, hj2⟩, _, _⟩ := hm c.1 c.2 hf0 hf1 he0 he2 hi
  rw [loopBody_interior_rev m (cornerState c) rfl hi]
  simp [cornerState, cornerNext, tmod_succ_of_valid _ hj0 hj2]

/-- The plain state on a corner of a fan is a plain state. -/
theorem plainState_of_fan (m : Tables) (v : Int) (k : Nat) (c : Nat → Int × Int)
    (closed : Bool) (hfan : FanAt m v k c closed) (i : Nat) (hi : i < k) :
    PlainState m (cornerState (c i)) := by
  obtain ⟨h0, h1, h2, h3, _⟩ := hfan.2.1 i hi
  exact ⟨⟨h0, h1, h2, h3⟩, rfl, rfl⟩

/-- A plain state whose active vertex is `v` sits on a corner of the fan at `v`. -/
theorem exists_corner_of_plain (m : Tables) (v : Int) (k : Nat) (c : Nat → Int × Int)
    (closed : Bool) (hfan : FanAt m v k c closed) (s : State) (hs : PlainState m s)
    (hvi : Vi m s = v) : ∃ i, i < k ∧ s = cornerState (c i) := by
  obtain ⟨⟨hf0, hf1, he0, he2⟩, hr, hb⟩ := hs
  have hF : m.F s.fi s.ei = v := by simpa [Vi, Vii, hr] using hvi
  obtain ⟨i, hi, hc⟩ := hfan.2.2.2.1 s.fi s.ei hf0 hf1 he0 he2 hF
  refine ⟨i, hi, ?_⟩
  obtain ⟨e, f, r, b⟩ := s
  simp only at hr hb
  simp [cornerState, hc, hr, hb]

/-- In a closed fan every corner has an interior leaving edge and is followed
by the next corner, cyclically. -/
theorem closed_fan_next (m : Tables) (v : Int) (k : Nat) (c : Nat → Int × Int)
    (hfan : FanAt m v k c true) (i : Nat) (hi : i < k) :
    m.FF (c i).1 (c i).2 ≠ -1 ∧ cornerNext m (c i) = c ((i + 1) % k) := by
  by_cases h : i + 1 < k
  · rw [Nat.mod_eq_of_lt h]
    exact hfan.2.2.2.2.1 i h
  · have hik : i = k - 1 := by omega
    have hmod : (i + 1) % k = 0 := by
      have : i + 1 = k := by omega
      rw [this, Nat.mod_self]
    rw [hmod, hik]
    exact hfan.2.2.2.2.2.1 rfl

/-- Around a closed fan `iterHE()` moves from each corner to the next one. -/
theorem iterHE_closed_fan_step (m : Tables) (hm : MirrorConsistent m) (v : Int) (k : Nat)
    (c : Nat → Int × Int) (hfan : FanAt m v k c true) (fuel : Nat) (i : Nat) (hi : i < k) :
    iterHE m fuel (cornerState (c i)) = some (cornerState (c ((i + 1) % k))) := by
  obtain ⟨hint, hnext⟩ := closed_fan_next m v k c hfan i hi
  obtain ⟨h0, h1, h2, h3, _⟩ := hfan.2.1 i hi
  rw [iterHE_plain_interior m hm _ (plainState_of_fan m v k c true hfan i hi) hint fuel,
    loopBody_cornerState m hm (c i) h0 h1 h2 h3 hint, hnext]

/-- Around a closed fan `n` calls of `iterHE()` advance by `n` corners. -/
theorem iterHE_closed_fan_times (m : Tables) (hm : MirrorConsistent m) (v : Int) (k : Nat)
    (c : Nat → Int × Int) (hfan : FanAt m v k c true) (fuel : Nat) (i : Nat) (hi : i < k)
    (n : Nat) :
    times (iterHE m fuel) n (cornerState (c i)) = some (cornerState (c ((i + n) % k))) := by
  have hk : 0 < k := hfan.1
  have h := times_of_steps (iterHE m fuel) (fun j => cornerState (c ((i + j) % k))) n
    (by
      intro j _
      have hlt : (i + j) % k < k := Nat.mod_lt _ hk
      have hstep := iterHE_closed_fan_step m hm v k c hfan fuel ((i + j) % k) hlt
      have hmod : ((i + j) % k + 1) % k = (i + (j + 1)) % k := by
        rw [Nat.add_mod, Nat.mod_mod, ← Nat.add_mod, Nat.add_assoc]
      simpa only [hmod] using hstep)
  simpa only [Nat.add_zero, Nat.mod_eq_of_lt hi] using h

/-- A vertex with a closed fan has no incident boundary edge. -/
theorem closed_fan_no_boundary (m : Tables) (hm : MirrorConsistent m) (v : Int) (k : Nat)
    (c : Nat → Int × Int) (hfan : FanAt m v k c true) (f e : Int)
    (hf0 : 0 ≤ f) (hf1 : f < (m.rows : Int)) (he0 : 0 ≤ e) (he2 : e ≤ 2)
    (hbe : m.FF f e = -1) : ¬ (m.F f e = v ∨ m.F f ((e + 1) % 3) = v) := by
  have hk : 0 < k := hfan.1
  rintro (h | h)
  · obtain ⟨i, hi, hc⟩ := hfan.2.2.2.1 f e hf0 hf1 he0 he2 h
    have := (closed_fan_next m v k c hfan i hi).1
    rw [hc] at this
    exact this hbe
  · have hn := next_edge_of_valid e he0 he2
    obtain ⟨i, hi, hc⟩ := hfan.2.2.2.1 f ((e + 1) % 3) hf0 hf1 hn.2.2.1 hn.2.2.2 h
    -- the corner before `c i` in the cycle
    have hpi : (i + k - 1) % k < k := Nat.mod_lt _ hk
    have hsucc : ((i + k - 1) % k + 1) % k = i := by
      rw [Nat.add_mod, Nat.mod_mod, ← Nat.add_mod,
        show i + k - 1 + 1 = i + k from by omega, Nat.add_mod_right,
        Nat.mod_eq_of_lt hi]
    obtain ⟨hint, hnext⟩ := closed_fan_next m v k c hfan ((i + k - 1) % k) hpi
    obtain ⟨p0, p1, p2, p3, _⟩ := hfan.2.1 ((i + k - 1) % k) hpi
    rw [hsucc, hc] at hnext
    generalize c ((i + k - 1) % k) = p at hint hnext p0 p1 p2 p3
    obtain ⟨⟨_, _, hj0, hj2⟩, hmf, _⟩ := hm p.1 p.2 p0 p1 p2 p3 hint
    have hface : m.FF p.1 p.2 = f := congrArg Prod.fst hnext
    have hedge : (m.FFi p.1 p.2 + 1) % 3 = (e + 1) % 3 := congrArg Prod.snd hnext
    have hj : m.FFi p.1 p.2 = e := emod_succ_inj _ _ hj0 hj2 he0 he2 hedge
    rw [hface, hj, hbe] at hmf
    omega

/-- The six corners `grid3Ring` are a closed fan at the middle vertex of `grid3`. -/
theorem grid3_ring_fan : FanAt grid3 4 6 grid3Ring true := by
  refine ⟨by decide, ?_, ?_, ?_, ?_, ?_, ?_⟩
  · intro i hi
    interval_cases i <;> decide
  · intro i j hi hj
    interval_cases i <;> interval_cases j <;> decide
  · intro f e hf0 hf1 he0 he2
    have hf1 : f < 8 := by simpa [grid3] using hf1
    interval_cases f <;> interval_cases e <;> decide
  · intro i hi
    have hi : i < 5 := by omega
    interval_cases i <;> decide
  · intro _
    decide
  · intro h
    exact absurd h (by decide)

/-- The three corners `grid3Fan1` are an open fan at the border vertex 1 of `grid3`. -/
theorem grid3_fan1 : FanAt grid3 1 3 grid3Fan1 false := by
  refine ⟨by decide, ?_, ?_, ?_, ?_, ?_, ?_⟩
  · intro i hi
    interval_cases i <;> decide
  · intro i j hi hj
    interval_cases i <;> interval_cases j <;> decide
  · intro f e hf0 hf1 he0 he2
    have hf1 : f < 8 := by simpa [grid3] using hf1
    interval_cases f <;> interval_cases e <;> decide
  · intro i hi
    have hi : i < 2 := by omega
    interval_cases i <;> decide
  · intro h
    exact absurd h (by decide)
  · intro _
    decide

/-- On vertex-consistent tables one pass `flipF(); flipE();` from a plain state
on an interior edge keeps the active vertex. -/
theorem Vi_loopBody_step_rev (m : Tables) (hm : MirrorConsistent m)
    (hvc : VertexConsistent m) (a : State) (ha : PlainState m a)
    (hai : m.FF a.fi a.ei ≠ -1) :
    Vi m (loopBody m a) = Vi m a := by
  obtain ⟨⟨af0, af1, ae0, ae2⟩, ar, _⟩ := ha
  obtain ⟨⟨_, _, aj0, aj2⟩, _, _⟩ := hm a.fi a.ei af0 af1 ae0 ae2 hai
  obtain ⟨_, hv2⟩ := hvc a.fi a.ei af0 af1 ae0 ae2 hai
  rw [loopBody_interior_rev m a ar hai]
  simp [Vi, Vii, ar, tmod_succ_of_valid _ aj0 aj2, hv2]

/-- The active vertex is constant along the orbit of `loopBody` from a plain
state while the orbit has met interior edges only. -/
theorem plain_orbit_Vi (m : Tables) (hm : MirrorConsistent m) (hvc : VertexConsistent m)
    (s0 : State) (hs : PlainState m s0) :
    ∀ n : Nat, (∀ i, i < n → isBoundaryE m ((loopBody m)^[i] s0) = false) →
      Vi m ((loopBody m)^[n] s0) = Vi m s0 := by
  intro n
  induction n with
  | zero => intro _; rfl
  | succ k ih =>
    intro h
    rw [Function.iterate_succ_apply',
      Vi_loopBody_step_rev m hm hvc _
        (plain_orbit_iterate m hm s0 hs k (fun i hi => h i (by omega)))
        ((isBoundaryE_eq_false_iff m _).1 (h k (by omega))),
      ih (fun i hi => h i (by omega))]

/-- Along a fan the orbit of `loopBody` from the corner `c i0` runs through the
corners `c (i0 + n)` up to the last corner of the fan. -/
theorem fan_orbit (m : Tables) (hm : MirrorConsistent m) (v : Int) (k : Nat)
    (c : Nat → Int × Int) (closed : Bool) (hfan : FanAt m v k c closed) (i0 : Nat) :
    ∀ n : Nat, i0 + n < k →
      (loopBody m)^[n] (cornerState (c i0)) = cornerState (c (i0 + n)) := by
  intro n
  induction n with
  | zero => intro _; rfl
  | succ j ih =>
    intro h
    obtain ⟨h0, h1, h2, h3, _⟩ := hfan.2.1 (i0 + j) (by omega)
    obtain ⟨hint, hnext⟩ := hfan.2.2.2.2.1 (i0 + j) (by omega)
    rw [Function.iterate_succ_apply', ih (by omega),
      loopBody_cornerState m hm _ h0 h1 h2 h3 hint, hnext]
    rfl

/-- Flags at the exit of the search loop, for any tables: entered on a boundary
edge with reverse cleared (or on an interior edge with reverse set), the loop
can only return a state on a boundary edge with reverse set and boundary
cleared. -/
theorem searchLoop_flags (m : Tables) :
    ∀ (fuel : Nat) (s t : State), searchLoop m fuel s = some t →
      ((s.reverse = false ∧ m.FF s.fi s.ei = -1) ∨
        (s.reverse = true ∧ m.FF s.fi s.ei ≠ -1)) →
      t.reverse = true ∧ t.boundary = false ∧ m.FF t.fi t.ei = -1 := by
  intro fuel
  induction fuel with
  | zero => intro s t h; simp [searchLoop] at h
  | succ n ih =>
    intro s t h hs
    have hflags : (loopBody m s).reverse = true ∧ (loopBody m s).boundary = false := by
      rcases hs with ⟨hr, hb⟩ | ⟨hr, hb⟩
      · rw [loopBody_entry m s hr hb]; exact ⟨rfl, rfl⟩
      · rw [loopBody_interior m s hr hb]; exact ⟨rfl, rfl⟩
    simp only [searchLoop] at h
    rw [show flipE (flipF m s).2 = loopBody m s from rfl] at h
    by_cases hbd : isBoundaryE m (loopBody m s) = true
    · rw [if_pos hbd] at h
      cases h
      exact ⟨hflags.1, hflags.2, (isBoundaryE_eq_true_iff m _).1 hbd⟩
    · rw [if_neg hbd] at h
      have hint : isBoundaryE m (loopBody m s) = false := by simpa using hbd
      exact ih _ t h (Or.inr ⟨hflags.1, (isBoundaryE_eq_false_iff m _).1 hint⟩)

/-- Mirror-consistent tables are in range. -/
theorem tablesInRange_of_mirrorConsistent (m : Tables) (hm : MirrorConsistent m) :
    TablesInRange m := by
  intro f e hf0 hf1 he0 he2
  by_cases hi : m.FF f e = -1
  · refine ⟨by rw [hi]; omega, fun h => absurd hi h⟩
  · obtain ⟨⟨h1, h2, h3, h4⟩, _, _⟩ := hm f e hf0 hf1 he0 he2 hi
    exact ⟨⟨by omega, h2⟩, fun _ => ⟨h3, h4⟩⟩

theorem validState_flipF (m : Tables) (hr : TablesInRange m) (s : State)
    (hv : ValidState m s) : ValidState m (flipF m s).2 := by
  obtain ⟨hf0, hf1, he0, he2⟩ := hv
  by_cases hi : m.FF s.fi s.ei = -1
  · rw [flipF_of_boundary m s hi]
    exact ⟨hf0, hf1, he0, he2⟩
  · obtain ⟨⟨h1, h2⟩, h3⟩ := hr s.fi s.ei hf0 hf1 he0 he2
    obtain ⟨h4, h5⟩ := h3 hi
    rw [flipF_of_interior m s hi]
    exact ⟨by show 0 ≤ m.FF s.fi s.ei; omega, h2, h4, h5⟩

theorem validState_flipE (m : Tables) (s : State) (hv : ValidState m s) :
    ValidState m (flipE s) := by
  obtain ⟨hf0, hf1, he0, he2⟩ := hv
  have h1 := tmod_succ_range s.ei he0 he2
  have h2 := tmod_add_two_range s.ei he0 he2
  cases hr : s.reverse
  · exact ⟨hf0, hf1, by simp [flipE, Eif, hr, h2.1], by simp [flipE, Eif, hr, h2.2.1]⟩
  · exact ⟨hf0, hf1, by simp [flipE, Eif, hr, h1.1], by simp [flipE, Eif, hr, h1.2]⟩

theorem validState_flipV (m : Tables) (s : State) (hv : ValidState m s) :
    ValidState m (flipV s) := hv

theorem validState_flipHE (m : Tables) (hr : TablesInRange m) (s : State)
    (hv : ValidState m s) : ValidState m (flipHE m s) :=
  validState_flipF m hr s hv

theorem validState_loopBody (m : Tables) (hr : TablesInRange m) (s : State)
    (hv : ValidState m s) : ValidState m (loopBody m s) :=
  validState_flipE m _ (validState_flipF m hr s hv)

theorem validState_iterate (m : Tables) (hr : TablesInRange m) (s : State)
    (hv : ValidState m s) (n : Nat) : ValidState m ((loopBody m)^[n] s) := by
  induction n with
  | zero => exact hv
  | succ k ih =>
    rw [Function.iterate_succ_apply']
    exact validState_loopBody m hr _ ih

theorem validState_searchLoop (m : Tables) (hr : TablesInRange m) :
    ∀ (fuel : Nat) (s t : State), ValidState m s → searchLoop m fuel s = some t →
      ValidState m t := by
  intro fuel
  induction fuel with
  | zero => intro s t _ h; simp [searchLoop] at h
  | succ n ih =>
    intro s t hv h
    simp only [searchLoop] at h
    have h1 : ValidState m (flipE (flipF m s).2) := validState_loopBody m hr s hv
    by_cases hbd : isBoundaryE m (flipE (flipF m s).2) = true
    · rw [if_pos hbd] at h
      cases h
      exact h1
    · rw [if_neg hbd] at h
      exact ih _ t h1 h

theorem validState_nextHE (m : Tables) (hr : TablesInRange m) (s : State)
    (hv : ValidState m s) (fuel : Nat) (t : State) (h : nextHE m fuel s = some t) :
    ValidState m t := by
  obtain ⟨hf0, hf1, he0, he2⟩ := hv
  cases hbd : s.boundary
  · simp only [nextHE, hbd, Bool.false_eq_true, if_false, Option.some.injEq] at h
    rw [← h]
    have hn := next_edge_of_valid s.ei he0 he2
    refine ⟨hf0, hf1, ?_, ?_⟩
    · show 0 ≤ (if (s.ei == 2) = true then 0 else s.ei + 1)
      simp only [beq_iff_eq, hn.1]; exact hn.2.2.1
    · show (if (s.ei == 2) = true then 0 else s.ei + 1) ≤ 2
      simp only [beq_iff_eq, hn.1]; exact hn.2.2.2
  · cases hrv : s.reverse
    · simp only [nextHE, hbd, hrv, if_true, Bool.false_eq_true, if_false] at h
      cases hs : searchLoop m fuel s with
      | none => rw [hs] at h; simp at h
      | some u =>
        rw [hs] at h
        simp only [Option.map_some', Option.some.injEq] at h
        rw [← h]
        exact validState_flipV m _ (validState_flipHE m hr u
          (validState_searchLoop m hr fuel s u ⟨hf0, hf1, he0, he2⟩ hs))
    · simp only [nextHE, hbd, hrv, if_true] at h
      cases hs : searchLoop m fuel (flipV s) with
      | none => rw [hs] at h; simp at h
      | some u =>
        rw [hs] at h
        simp only [Option.map_some', Option.some.injEq] at h
        rw [← h]
        exact validState_flipHE m hr u
          (validState_searchLoop m hr fuel (flipV s) u ⟨hf0, hf1, he0, he2⟩ hs)

theorem validState_iterHE (m : Tables) (hr : TablesInRange m) (s : State)
    (hv : ValidState m s) (fuel : Nat) (t : State) (h : iterHE m fuel s = some t) :
    ValidState m t := by
  by_cases hc : (s.reverse != s.boundary) = true
  · simp only [iterHE, hc, if_true] at h
    cases hs : nextHE m fuel s with
    | none => rw [hs] at h; simp at h
    | some u =>
      rw [hs] at h
      simp only [Option.map_some', Option.some.injEq] at h
      rw [← h]
      exact validState_flipHE m hr _
        (validState_flipV m u (validState_nextHE m hr s hv fuel u hs))
  · simp only [iterHE, hc, Bool.false_eq_true, if_false] at h
    cases hs : nextHE m fuel (flipHE m s) with
    | none => rw [hs] at h; simp at h
    | some u =>
      rw [hs] at h
      simp only [Option.map_some', Option.some.injEq] at h
      rw [← h]
      exact validState_flipV m u
        (validState_nextHE m hr _ (validState_flipHE m hr s hv) fuel u hs)

theorem validState_nextFE (m : Tables) (hr : TablesInRange m) (s : State)
    (hv : ValidState m s) (fuel : Nat) (r : Bool × State)
    (h : nextFE m fuel s = some r) : ValidState m r.2 := by
  by_cases hbd : isBoundaryE m s = true
  · simp only [nextFE, hbd, if_true] at h
    cases hs : searchLoop m fuel s with
    | none => rw [hs] at h; simp at h
    | some u =>
      rw [hs] at h
      simp only [Option.map_some', Option.some.injEq] at h
      rw [← h]
      exact validState_flipE m u (validState_searchLoop m hr fuel s u hv hs)
  · simp only [nextFE, hbd, Bool.false_eq_true, if_false, Option.some.injEq] at h
    rw [← h]
    exact validState_loopBody m hr s hv

theorem validState_init (m : Tables) (s : State) (hv : ValidState m s)
    (faceIndex edgeIndex : Int) (reverse : Bool) :
    ValidState m (init m s faceIndex edgeIndex reverse).2 := by
  by_cases h : 0 ≤ faceIndex ∧ faceIndex < (m.rows : Int) ∧ 0 ≤ edgeIndex ∧ edgeIndex ≤ 2
  · obtain ⟨h1, h2, h3, h4⟩ := h
    simp only [init, ge_iff_le, h1, h2, h3, h4, decide_True, Bool.and_self, if_true]
    exact ⟨h1, h2, h3, h4⟩
  · have hc : ¬ ((faceIndex ≥ 0 && faceIndex < (m.rows : Int) && edgeIndex ≥ 0 &&
        edgeIndex ≤ 2) = true) := by
      simpa [and_assoc] using h
    simp only [init, if_neg hc]
    exact hv

/-- The search loop can only return a state on a boundary edge, and that state
is the first one of the orbit of `loopBody` on a boundary edge. -/
theorem searchLoop_spec (m : Tables) :
    ∀ (fuel : Nat) (s t : State), searchLoop m fuel s = some t →
      ∃ k, 1 ≤ k ∧ k ≤ fuel ∧ t = (loopBody m)^[k] s ∧
        isBoundaryE m ((loopBody m)^[k] s) = true ∧
        (∀ i, 1 ≤ i → i < k → isBoundaryE m ((loopBody m)^[i] s) = false) := by
  intro fuel
  induction fuel with
  | zero => intro s t h; simp [searchLoop] at h
  | succ n ih =>
    intro s t h
    simp only [searchLoop] at h
    rw [show flipE (flipF m s).2 = loopBody m s from rfl] at h
    by_cases hbd : isBoundaryE m (loopBody m s) = true
    · rw [if_pos hbd] at h
      cases h
      refine ⟨1, le_refl 1, by omega, rfl, hbd, ?_⟩
      intro i h1 h2
      omega
    · rw [if_neg hbd] at h
      have hint : isBoundaryE m (loopBody m s) = false := by simpa using hbd
      obtain ⟨k, hk1, hk2, hkt, hkb, hkmin⟩ := ih _ t h
      refine ⟨k + 1, by omega, by omega, ?_, ?_, ?_⟩
      · rw [Function.iterate_succ_apply]; exact hkt
      · rw [Function.iterate_succ_apply]; exact hkb
      · intro i hi1 hi2
        obtain ⟨j, rfl⟩ : ∃ j, i = j + 1 := ⟨i - 1, by omega⟩
        rw [Function.iterate_succ_apply]
        by_cases hj : j = 0
        · subst hj; exact hint
        · exact hkmin j (by omega) (by omega)

theorem flagOK_flipF (m : Tables) (s : State) (h : BoundaryFlagOK m s) :
    BoundaryFlagOK m (flipF m s).2 := by
  by_cases hi : m.FF s.fi s.ei = -1
  · rw [flipF_of_boundary m s hi]; exact h
  · rw [flipF_of_interior m s hi]
    intro hb
    exact absurd (h hb) hi

theorem flagOK_flipE (m : Tables) (s : State) : BoundaryFlagOK m (flipE s) := by
  intro hb
  simp [flipE] at hb

theorem flagOK_flipV (m : Tables) (s : State) (h : BoundaryFlagOK m s) :
    BoundaryFlagOK m (flipV s) := h

theorem flagOK_flipHE (m : Tables) (s : State) : BoundaryFlagOK m (flipHE m s) := by
  by_cases hi : m.FF s.fi s.ei = -1
  · intro _
    simp [flipHE, flipF_of_boundary m s hi, hi]
  · intro hb
    simp [flipHE, flipF_of_interior m s hi] at hb

theorem flagOK_nextHE (m : Tables) (s : State) (fuel : Nat) (t : State)
    (h : nextHE m fuel s = some t) : BoundaryFlagOK m t := by
  cases hbd : s.boundary
  · simp only [nextHE, hbd, Bool.false_eq_true, if_false, Option.some.injEq] at h
    rw [← h]
    intro hb
    simp [hbd] at hb
  · cases hrv : s.reverse
    · simp only [nextHE, hbd, hrv, if_true, Bool.false_eq_true, if_false] at h
      cases hs : searchLoop m fuel s with
      | none => rw [hs] at h; simp at h
      | some u =>
        rw [hs] at h
        simp only [Option.map_some', Option.some.injEq] at h
        rw [← h]
        exact flagOK_flipV m _ (flagOK_flipHE m u)
    · simp only [nextHE, hbd, hrv, if_true] at h
      cases hs : searchLoop m fuel (flipV s) with
      | none => rw [hs] at h; simp at h
      | some u =>
        rw [hs] at h
        simp only [Option.map_some', Option.some.injEq] at h
        rw [← h]
        exact flagOK_flipHE m u

theorem flagOK_iterHE (m : Tables) (s : State) (fuel : Nat) (t : State)
    (h : iterHE m fuel s = some t) : BoundaryFlagOK m t := by
  by_cases hc : (s.reverse != s.boundary) = true
  · simp only [iterHE, hc, if_true] at h
    cases hs : nextHE m fuel s with
    | none => rw [hs] at h; simp at h
    | some u =>
      rw [hs] at h
      simp only [Option.map_some', Option.some.injEq] at h
      rw [← h]
      exact flagOK_flipHE m _
  · simp only [iterHE, hc, Bool.false_eq_true, if_false] at h
    cases hs : nextHE m fuel (flipHE m s) with
    | none => rw [hs] at h; simp at h
    | some u =>
      rw [hs] at h
      simp only [Option.map_some', Option.some.injEq] at h
      rw [← h]
      exact flagOK_flipV m u (flagOK_nextHE m _ fuel u hs)

theorem flagOK_nextFE (m : Tables) (s : State) (fuel : Nat) (r : Bool × State)
    (h : nextFE m fuel s = some r) : BoundaryFlagOK m r.2 := by
  by_cases hbd : isBoundaryE m s = true
  · simp only [nextFE, hbd, if_true] at h
    cases hs : searchLoop m fuel s with
    | none => rw [hs] at h; simp at h
    | some u =>
      rw [hs] at h
      simp only [Option.map_some', Option.some.injEq] at h
      rw [← h]
      exact flagOK_flipE m u
  · simp only [nextFE, hbd, Bool.false_eq_true, if_false, Option.some.injEq] at h
    rw [← h]
    exact flagOK_flipE m _

theorem flagOK_init (m : Tables) (s : State) (h : BoundaryFlagOK m s)
    (faceIndex edgeIndex : Int) (reverse : Bool) :
    BoundaryFlagOK m (init m s faceIndex edgeIndex reverse).2 ∧
    ((init m s faceIndex edgeIndex reverse).1 = true →
      (init m s faceIndex edgeIndex reverse).2.boundary = false) := by
  by_cases hc : (faceIndex ≥ 0 && faceIndex < (m.rows : Int) && edgeIndex ≥ 0 &&
      edgeIndex ≤ 2) = true
  · simp only [init, if_pos hc]
    exact ⟨fun hb => by simp at hb, fun _ => trivial⟩
  · simp only [init, if_neg hc]
    exact ⟨h, fun hf => by simp at hf⟩

/-- Every state reachable without `setState` has its boundary flag set only on
a boundary edge. -/
theorem flagOK_of_reachable (m : Tables) (s : State) (h : Reachable m s) :
    BoundaryFlagOK m s := by
  induction h with
  | construct fi ei r => intro hb; simp [construct] at hb
  | init s faceIndex edgeIndex r _ ih => exact (flagOK_init m s ih faceIndex edgeIndex r).1
  | flipF s _ ih => exact flagOK_flipF m s ih
  | flipE s _ _ => exact flagOK_flipE m s
  | flipV s _ ih => exact flagOK_flipV m s ih
  | flipHE s _ _ => exact flagOK_flipHE m s
  | nextHE s fuel t _ hstep _ => exact flagOK_nextHE m s fuel t hstep
  | iterHE s fuel t _ hstep _ => exact flagOK_iterHE m s fuel t hstep
  | nextFE s fuel r _ hstep _ => exact flagOK_nextFE m s fuel r hstep

/-! ## Claims -/

/-- C1: `flipF()` returns false exactly when `FF(face,edge) == -1`, and a failed
call leaves the whole state (face, edge, reverse, boundary) as it was. -/
theorem flipF_false_iff_boundary (m : Tables) (s : State) :
    ((flipF m s).1 = false ↔ m.FF s.fi s.ei = -1) ∧
    ((flipF m s).1 = false →
      (flipF m s).2.fi = s.fi ∧ (flipF m s).2.ei = s.ei ∧
      (flipF m s).2.reverse = s.reverse ∧ (flipF m s).2.boundary = s.boundary ∧
      (flipF m s).2 = s) := by
  by_cases h : m.FF s.fi s.ei = -1
  · simp [flipF_of_boundary m s h, h]
  · simp [flipF_of_interior m s h, h]

/-- C2: on an interior edge `flipF()` returns true and the new state is
face `FF(f,e)`, edge `FFi(f,e)` (both read at the old face and edge),
reverse negated, boundary unchanged. -/
theorem flipF_interior_state (m : Tables) (f e : Int) (r b : Bool)
    (h : m.FF f e ≠ -1) :
    flipF m { ei := e, fi := f, reverse := r, boundary := b } =
      (true, { ei := m.FFi f e, fi := m.FF f e, reverse := !r, boundary := b }) := by
  simpa using flipF_of_interior m { ei := e, fi := f, reverse := r, boundary := b } h

/-- Witness of C2: crossing the shared edge of `twoTriangles` from face 0. -/
theorem flipF_interior_state_witness :
    twoTriangles.FF 0 1 ≠ -1 ∧
    flipF twoTriangles { ei := 1, fi := 0, reverse := false, boundary := true } =
      (true, { ei := twoTriangles.FFi 0 1, fi := twoTriangles.FF 0 1,
               reverse := !false, boundary := true }) :=
  ⟨by decide, flipF_interior_state twoTriangles 0 1 false true (by decide)⟩

/-- C3: `flipHE()` on a boundary edge keeps face, edge and reverse and negates
boundary; on an interior edge it moves like a successful `flipF()` and sets
boundary to false.  When every entry of `FF` is `-1` (an isolated triangle),
`n` successive calls leave boundary as it was for even `n` and negated for odd
`n`, with face, edge and reverse untouched. -/
theorem flipHE_cases (m : Tables) (s : State) :
    (m.FF s.fi s.ei = -1 →
      flipHE m s =
        { ei := s.ei, fi := s.fi, reverse := s.reverse, boundary := !s.boundary }) ∧
    (m.FF s.fi s.ei ≠ -1 →
      (flipF m s).1 = true ∧
      (flipHE m s).fi = (flipF m s).2.fi ∧ (flipHE m s).ei = (flipF m s).2.ei ∧
      (flipHE m s).reverse = (flipF m s).2.reverse ∧
      flipHE m s =
        { ei := m.FFi s.fi s.ei, fi := m.FF s.fi s.ei, reverse := !s.reverse,
          boundary := false }) ∧
    ((∀ f e : Int, m.FF f e = -1) → ∀ n : Nat,
      (flipHE m)^[n] s =
        { ei := s.ei, fi := s.fi, reverse := s.reverse,
          boundary := if n % 2 = 0 then s.boundary else !s.boundary }) := by
  refine ⟨?_, ?_, ?_⟩
  · intro h
    simp [flipHE, flipF_of_boundary m s h]
  · intro h
    simp [flipHE, flipF_of_interior m s h]
  · intro hall n
    induction n with
    | zero => simp
    | succ k ih =>
      rw [Function.iterate_succ_apply', ih]
      by_cases hk0 : k % 2 = 0
      · have hk1 : ¬ ((k + 1) % 2 = 0) := by omega
        simp [flipHE, flipF, Fif, hall, hk0, hk1]
      · have hk1 : (k + 1) % 2 = 0 := by omega
        simp [flipHE, flipF, Fif, hall, hk0, hk1]

/-- C4: for `e ∈ {0,1,2}`, `flipE()` keeps the face, sets the edge to `(e+1)%3`
when reverse is true and to `(e+2)%3` when it is false, negates reverse and
clears boundary.  It takes no table and is a total function. -/
theorem flipE_state (f e : Int) (r b : Bool) (h0 : 0 ≤ e) (h2 : e ≤ 2) :
    flipE { ei := e, fi := f, reverse := r, boundary := b } =
      { ei := if r = true then (e + 1) % 3 else (e + 2) % 3, fi := f,
        reverse := !r, boundary := false } := by
  cases r
  · simp [flipE, Eif, tmod_add_two_of_valid e h0 h2]
  · simp [flipE, Eif, tmod_succ_of_valid e h0 h2]

/-- Witness of C4: edge 2 of face 5, reversed, on a virtual boundary position. -/
theorem flipE_state_witness :
    flipE { ei := 2, fi := 5, reverse := true, boundary := true } =
      { ei := if true = true then (2 + 1) % 3 else (2 + 2) % 3, fi := 5,
        reverse := !true, boundary := false } :=
  flipE_state 5 2 true true (by decide) (by decide)

/-- C5: `init(faceIndex, edgeIndex, reverse)` returns true exactly when
`0 ≤ faceIndex < F.rows()` and `0 ≤ edgeIndex ≤ 2`; on success the state is
`(faceIndex, edgeIndex, reverse, boundary = false)`, on failure it is unchanged. -/
theorem init_spec (m : Tables) (s : State) (faceIndex edgeIndex : Int) (reverse : Bool) :
    ((init m s faceIndex edgeIndex reverse).1 = true ↔
      (0 ≤ faceIndex ∧ faceIndex < (m.rows : Int) ∧ 0 ≤ edgeIndex ∧ edgeIndex ≤ 2)) ∧
    ((init m s faceIndex edgeIndex reverse).1 = true →
      (init m s faceIndex edgeIndex reverse).2 =
        { ei := edgeIndex, fi := faceIndex, reverse := reverse, boundary := false }) ∧
    ((init m s faceIndex edgeIndex reverse).1 = false →
      (init m s faceIndex edgeIndex reverse).2 = s) := by
  by_cases h : 0 ≤ faceIndex ∧ faceIndex < (m.rows : Int) ∧ 0 ≤ edgeIndex ∧ edgeIndex ≤ 2
  · obtain ⟨h1, h2, h3, h4⟩ := h
    simp [init, h1, h2, h3, h4]
  · have hc : ¬ ((faceIndex ≥ 0 && faceIndex < (m.rows : Int) && edgeIndex ≥ 0 &&
        edgeIndex ≤ 2) = true) := by
      simpa [and_assoc] using h
    simp only [init, if_neg hc]
    simp [h]

/-- C6: on tables with the mirror invariant, `flipF(); flipF();` from a valid
position ends on the original face: on a boundary edge both calls fail, on an
interior edge both succeed and the second one crosses back. -/
theorem flipF_flipF_face (m : Tables) (s : State) (hv : ValidState m s)
    (hm : MirrorFace m) :
    (flipF m (flipF m s).2).2.fi = s.fi ∧
    (m.FF s.fi s.ei = -1 →
      (flipF m s).1 = false ∧ (flipF m (flipF m s).2).1 = false) ∧
    (m.FF s.fi s.ei ≠ -1 →
      (flipF m s).1 = true ∧ (flipF m (flipF m s).2).1 = true ∧
      (flipF m s).2.ei = m.FFi s.fi s.ei) := by
  obtain ⟨hf0, hf1, he0, he2⟩ := hv
  by_cases h : m.FF s.fi s.ei = -1
  · simp [flipF_of_boundary m s h, h]
  · have hback : m.FF (m.FF s.fi s.ei) (m.FFi s.fi s.ei) = s.fi :=
      hm s.fi s.ei hf0 hf1 he0 he2 h
    have hne : m.FF (m.FF s.fi s.ei) (m.FFi s.fi s.ei) ≠ -1 := by
      rw [hback]; omega
    rw [flipF_of_interior m s h]
    have h2 := flipF_of_interior m
      { ei := m.FFi s.fi s.ei, fi := m.FF s.fi s.ei, reverse := !s.reverse,
        boundary := s.boundary } hne
    rw [h2]
    simp [h, hback]

/-- The shared edge of `twoTriangles` satisfies the mirror invariant. -/
theorem twoTriangles_mirrorFace : MirrorFace twoTriangles := by
  intro f e hf0 hf1 he0 he2 hne
  have hf1 : f < 2 := by simpa [twoTriangles] using hf1
  interval_cases f <;> interval_cases e <;> simp [twoTriangles] at hne ⊢

/-- Witness of C6: crossing the shared edge of `twoTriangles` twice from face 0. -/
theorem flipF_flipF_face_witness :
    ValidState twoTriangles { ei := 1, fi := 0, reverse := false, boundary := false } ∧
    MirrorFace twoTriangles ∧
    (flipF twoTriangles
      (flipF twoTriangles { ei := 1, fi := 0, reverse := false, boundary := false }).2).2.fi
      = 0 :=
  ⟨by simp [ValidState, twoTriangles], twoTriangles_mirrorFace,
   (flipF_flipF_face twoTriangles { ei := 1, fi := 0, reverse := false, boundary := false }
      (by simp [ValidState, twoTriangles]) twoTriangles_mirrorFace).1⟩

/-- C7: `flipV()` negates reverse and keeps face, edge and boundary; two
calls give back the state they started from. -/
theorem flipV_spec (s : State) :
    (flipV s).fi = s.fi ∧ (flipV s).ei = s.ei ∧ (flipV s).boundary = s.boundary ∧
    (flipV s).reverse = (!s.reverse) ∧ flipV (flipV s) = s := by
  cases s
  simp [flipV]

/-- Counterexample to C8: from edge 0 (reverse false) three `flipE()` calls end
on edge 2, not on edge 0, and the edges met along the way are 2, 0, 2: edge 1
is never visited. -/
theorem flipE_three_not_identity :
    (flipE (flipE (flipE
      { ei := 0, fi := 0, reverse := false, boundary := false }))).ei = 2 ∧
    (flipE (flipE (flipE
      { ei := 0, fi := 0, reverse := false, boundary := false }))).ei ≠
      (State.mk 0 0 false false).ei ∧
    (flipE { ei := 0, fi := 0, reverse := false, boundary := false }).ei = 2 ∧
    (flipE (flipE { ei := 0, fi := 0, reverse := false, boundary := false })).ei = 0 ∧
    ¬ (∀ s : State, 0 ≤ s.ei → s.ei ≤ 2 → (flipE (flipE (flipE s))).ei = s.ei) := by
  refine ⟨by decide, by decide, by decide, by decide, ?_⟩
  intro h
  exact absurd (h { ei := 0, fi := 0, reverse := false, boundary := false }
    (by decide) (by decide)) (by decide)

/-- C8 (amended): for `e ∈ {0,1,2}` every `flipE()` keeps the face; two calls
return to the original edge index; three calls end where one call ends, on
`(e+2)%3` when reverse was false and `(e+1)%3` when it was true, which is not
the original edge; so only two of the three local edges are visited. -/
theorem flipE_three_eq_one (s : State) (h0 : 0 ≤ s.ei) (h2 : s.ei ≤ 2) :
    (flipE s).fi = s.fi ∧ (flipE (flipE s)).fi = s.fi ∧
    (flipE (flipE (flipE s))).fi = s.fi ∧
    (flipE (flipE s)).ei = s.ei ∧
    (flipE (flipE (flipE s))).ei = (flipE s).ei ∧
    (flipE s).ei = (if s.reverse = true then (s.ei + 1) % 3 else (s.ei + 2) % 3) ∧
    (flipE (flipE (flipE s))).ei ≠ s.ei := by
  obtain ⟨e, f, r, b⟩ := s
  simp only at h0 h2
  interval_cases e <;> cases r <;> simp [flipE, Eif] <;> decide

/-- Witness of C8 (amended): edge 1 of face 4 with reverse set. -/
theorem flipE_three_eq_one_witness :
    (flipE (flipE { ei := 1, fi := 4, reverse := true, boundary := false })).ei = 1 ∧
    (flipE (flipE (flipE { ei := 1, fi := 4, reverse := true, boundary := false }))).ei
      ≠ 1 :=
  ⟨(flipE_three_eq_one { ei := 1, fi := 4, reverse := true, boundary := false }
      (by decide) (by decide)).2.2.2.1,
   (flipE_three_eq_one { ei := 1, fi := 4, reverse := true, boundary := false }
      (by decide) (by decide)).2.2.2.2.2.2⟩

/-- C9: `nextHE()` moves to the next half-edge such that Vi0 becomes Vi1.
From a valid state with boundary cleared it returns (whatever the budget) a
state whose `Vi0()` is the old `Vi1()`.  From a valid state with boundary set
on a boundary edge of mirror-consistent and vertex-consistent tables, it
returns within a budget of `3 * F.rows()` loop passes, and again the new
`Vi0()` is the old `Vi1()`. -/
theorem nextHE_Vi0_eq_Vi1 (m : Tables) (s : State) (hv : ValidState m s) :
    (s.boundary = false →
      ∀ fuel, ∃ t, nextHE m fuel s = some t ∧ Vi0 m t = Vi1 m s) ∧
    (s.boundary = true → m.FF s.fi s.ei = -1 → MirrorConsistent m →
      VertexConsistent m → ∀ fuel, 3 * m.rows ≤ fuel →
        ∃ t, nextHE m fuel s = some t ∧ Vi0 m t = Vi1 m s) := by
  refine ⟨?_, ?_⟩
  · intro hb fuel
    obtain ⟨_, _, he0, he2⟩ := hv
    refine ⟨_, by simp only [nextHE, hb]; rfl, ?_⟩
    obtain ⟨e, f, r, b⟩ := s
    simp only at hb he0 he2
    subst hb
    interval_cases e <;> simp [Vi0, Vi1, Vii0, Vii1] <;> rfl
  · intro hb hbe hm hvc fuel hfuel
    have hVi1 : Vi1 m s = m.F s.fi s.ei := by simp [Vi1, Vii1, hb]
    have hfin : ∀ t, LoopState m t → m.FF t.fi t.ei = -1 →
        flipHE m t = { ei := t.ei, fi := t.fi, reverse := true, boundary := true } ∧
        Vi0 m (flipHE m t) = Vi m t ∧ Vi0 m (flipV (flipHE m t)) = Vi m t := by
      intro t ht htb
      obtain ⟨_, tr, tb⟩ := ht
      have : flipHE m t =
          { ei := t.ei, fi := t.fi, reverse := true, boundary := true } := by
        simp [flipHE, flipF_of_boundary m t htb, tr, tb]
      rw [this]
      simp [Vi0, Vii0, Vi, Vii, flipV, tr]
    cases hrev : s.reverse
    · obtain ⟨t, hres, hls, htb, hvi⟩ :=
        searchLoop_result m hm hvc s hv hrev hbe fuel hfuel
      refine ⟨flipV (flipHE m t), by simp [nextHE, hb, hrev, hres], ?_⟩
      rw [(hfin t hls htb).2.2, hvi, hVi1]
    · have hv2 : ValidState m (flipV s) := hv
      have hr2 : (flipV s).reverse = false := by simp [flipV, hrev]
      obtain ⟨t, hres, hls, htb, hvi⟩ :=
        searchLoop_result m hm hvc (flipV s) hv2 hr2 hbe fuel hfuel
      refine ⟨flipHE m t, by simp [nextHE, hb, hrev, hres], ?_⟩
      rw [(hfin t hls htb).2.1, hvi, hVi1]
      rfl

/-- The tables `twoTriangles` are mirror-consistent. -/
theorem twoTriangles_mirrorConsistent : MirrorConsistent twoTriangles := by
  intro f e hf0 hf1 he0 he2 hne
  have hf1 : f < 2 := by simpa [twoTriangles] using hf1
  interval_cases f <;> interval_cases e <;> simp [twoTriangles] at hne ⊢

/-- The tables `twoTriangles` are vertex-consistent. -/
theorem twoTriangles_vertexConsistent : VertexConsistent twoTriangles := by
  intro f e hf0 hf1 he0 he2 hne
  have hf1 : f < 2 := by simpa [twoTriangles] using hf1
  interval_cases f <;> interval_cases e <;> simp [twoTriangles] at hne ⊢

/-- Witness of C9: on `twoTriangles`, from the virtual boundary position on
edge 2 of face 0 the walk crosses into face 1 and stops on its edge 2; the new
start vertex is vertex 2, the old end vertex. -/
theorem nextHE_Vi0_eq_Vi1_witness :
    ValidState twoTriangles { ei := 2, fi := 0, reverse := false, boundary := true } ∧
    twoTriangles.FF 0 2 = -1 ∧
    nextHE twoTriangles 6 { ei := 2, fi := 0, reverse := false, boundary := true } =
      some { ei := 2, fi := 1, reverse := false, boundary := true } ∧
    Vi1 twoTriangles { ei := 2, fi := 0, reverse := false, boundary := true } = 2 ∧
    (∃ t, nextHE twoTriangles 6
        { ei := 2, fi := 0, reverse := false, boundary := true } = some t ∧
      Vi0 twoTriangles t =
        Vi1 twoTriangles { ei := 2, fi := 0, reverse := false, boundary := true }) ∧
    (∃ t, nextHE twoTriangles 0
        { ei := 2, fi := 0, reverse := true, boundary := false } = some t ∧
      Vi0 twoTriangles t =
        Vi1 twoTriangles { ei := 2, fi := 0, reverse := true, boundary := false }) :=
  ⟨by simp [ValidState, twoTriangles], by decide, by decide, by decide,
   (nextHE_Vi0_eq_Vi1 twoTriangles { ei := 2, fi := 0, reverse := false, boundary := true }
      (by simp [ValidState, twoTriangles])).2 rfl (by decide)
      twoTriangles_mirrorConsistent twoTriangles_vertexConsistent 6 (by decide),
   (nextHE_Vi0_eq_Vi1 twoTriangles { ei := 2, fi := 0, reverse := true, boundary := false }
      (by simp [ValidState, twoTriangles])).1 rfl 0⟩

/-- C10: from a state with boundary cleared and `e ∈ {0,1,2}`, `nextHE()` sets
the edge to `(e+1)%3` and keeps face, reverse and boundary (for any loop
budget, the loop is not entered); three calls give back the starting state,
and the states after one and after two calls are in the same face and differ
from the starting state. -/
theorem nextHE_plain_cycle (m : Tables) (f e : Int) (r : Bool) (k1 k2 k3 : Nat)
    (h0 : 0 ≤ e) (h2 : e ≤ 2) :
    nextHE m k1 { ei := e, fi := f, reverse := r, boundary := false } =
      some { ei := (e + 1) % 3, fi := f, reverse := r, boundary := false } ∧
    nextHE m k2 { ei := (e + 1) % 3, fi := f, reverse := r, boundary := false } =
      some { ei := (e + 2) % 3, fi := f, reverse := r, boundary := false } ∧
    nextHE m k3 { ei := (e + 2) % 3, fi := f, reverse := r, boundary := false } =
      some { ei := e, fi := f, reverse := r, boundary := false } ∧
    ((nextHE m k1 { ei := e, fi := f, reverse := r, boundary := false }).bind
        (nextHE m k2)).bind (nextHE m k3) =
      some { ei := e, fi := f, reverse := r, boundary := false } ∧
    (State.mk ((e + 1) % 3) f r false) ≠ State.mk e f r false ∧
    (State.mk ((e + 2) % 3) f r false) ≠ State.mk e f r false := by
  interval_cases e <;> simp [nextHE]

/-- Witness of C10: three `nextHE()` calls from edge 1 of face 0 of `twoTriangles`. -/
theorem nextHE_plain_cycle_witness :
    ((nextHE twoTriangles 0 { ei := 1, fi := 0, reverse := true, boundary := false }).bind
        (nextHE twoTriangles 0)).bind (nextHE twoTriangles 0) =
      some { ei := 1, fi := 0, reverse := true, boundary := false } ∧
    nextHE twoTriangles 0 { ei := 1, fi := 0, reverse := true, boundary := false } =
      some { ei := 2, fi := 0, reverse := true, boundary := false } :=
  ⟨(nextHE_plain_cycle twoTriangles 0 1 true 0 0 0 (by decide) (by decide)).2.2.2.1,
   (nextHE_plain_cycle twoTriangles 0 1 true 0 0 0 (by decide) (by decide)).1⟩

/-- C11: `iterHE()` moves around the current vertex.  On mirror-consistent and
vertex-consistent tables, from a valid state whose boundary flag is set only
on a boundary edge, `iterHE()` returns (within a budget of `3 * F.rows()` loop
passes) and the active vertex `Vi()` after the call is the one before it, in
each of the four reverse/boundary combinations. -/
theorem iterHE_keeps_Vi (m : Tables) (s : State) (hm : MirrorConsistent m)
    (hvc : VertexConsistent m) (hv : ValidState m s)
    (hb : s.boundary = true → m.FF s.fi s.ei = -1)
    (fuel : Nat) (hfuel : 3 * m.rows ≤ fuel) :
    ∃ t, iterHE m fuel s = some t ∧ Vi m t = Vi m s := by
  obtain ⟨e, f, r, b⟩ := s
  obtain ⟨hf0, hf1, he0, he2⟩ := hv
  simp only at hb hf0 hf1 he0 he2
  have hne := next_edge_of_valid e he0 he2
  cases r <;> cases b
  · -- reverse cleared, boundary cleared
    by_cases hi : m.FF f e = -1
    · obtain ⟨t, ⟨_, tr, _⟩, _, hvi, hres⟩ := nextHE_of_boundary m hm hvc
        { ei := e, fi := f, reverse := false, boundary := true }
        ⟨hf0, hf1, he0, he2⟩ rfl hi fuel hfuel
      have hfl : flipHE m { ei := e, fi := f, reverse := false, boundary := false } =
          { ei := e, fi := f, reverse := false, boundary := true } := by
        simp [flipHE, flipF, Fif, hi]
      refine ⟨_, by simp only [iterHE, hfl, hres]; rfl, ?_⟩
      simp only [Vi, Vii, tr] at hvi
      simpa [Vi, Vii, flipV] using hvi
    · obtain ⟨⟨_, _, hj0, hj2⟩, _, _⟩ := hm f e hf0 hf1 he0 he2 hi
      obtain ⟨_, hv2⟩ := hvc f e hf0 hf1 he0 he2 hi
      have hnj := next_edge_of_valid (m.FFi f e) hj0 hj2
      have hfl : flipHE m { ei := e, fi := f, reverse := false, boundary := false } =
          { ei := m.FFi f e, fi := m.FF f e, reverse := true, boundary := false } := by
        simp [flipHE, flipF, Fif, hi]
      refine ⟨_, by simp only [iterHE, hfl, nextHE]; rfl, ?_⟩
      simp [Vi, Vii, flipV, hnj.1, hv2]
  · -- reverse cleared, boundary set
    have hi := hb rfl
    obtain ⟨t, ⟨_, tr, _⟩, htb, hvi, hres⟩ := nextHE_of_boundary m hm hvc
      { ei := e, fi := f, reverse := false, boundary := true }
      ⟨hf0, hf1, he0, he2⟩ rfl hi fuel hfuel
    refine ⟨_, by simp only [iterHE, hres]; rfl, ?_⟩
    simp only [Vi, Vii, tr] at hvi
    simpa [Vi, Vii, flipV, flipHE, flipF, Fif, htb] using hvi
  · -- reverse set, boundary cleared
    have he := tmod_succ_of_valid e he0 he2
    refine ⟨_, by simp only [iterHE, nextHE]; rfl, ?_⟩
    have hst : flipV (State.mk (if (e == 2) = true then 0 else e + 1) f true false) =
        State.mk ((e + 1) % 3) f false false := by
      simp [flipV, hne.1]
    show Vi m (flipHE m (flipV _)) = _
    rw [hst]
    by_cases hi : m.FF f ((e + 1) % 3) = -1
    · simp [Vi, Vii, flipHE, flipF, Fif, hi, he]
    · obtain ⟨⟨_, _, hj0, hj2⟩, _, _⟩ := hm f ((e + 1) % 3) hf0 hf1 hne.2.2.1 hne.2.2.2 hi
      obtain ⟨_, hv2⟩ := hvc f ((e + 1) % 3) hf0 hf1 hne.2.2.1 hne.2.2.2 hi
      have hj := tmod_succ_of_valid _ hj0 hj2
      simp [Vi, Vii, flipHE, flipF, Fif, hi, hj, hv2, he]
  · -- reverse set, boundary set
    have hi := hb rfl
    refine ⟨_, by simp only [iterHE, flipHE, flipF, Fif, hi, nextHE]; rfl, ?_⟩
    simp [Vi, Vii, flipV, hne.2.1]

/-- Witness of C11: one `iterHE()` call on `twoTriangles` in each of the four
reverse/boundary combinations. -/
theorem iterHE_keeps_Vi_witness :
    (∃ t, iterHE twoTriangles 6 { ei := 1, fi := 0, reverse := false, boundary := false }
        = some t ∧
      Vi twoTriangles t =
        Vi twoTriangles { ei := 1, fi := 0, reverse := false, boundary := false }) ∧
    (∃ t, iterHE twoTriangles 6 { ei := 2, fi := 0, reverse := false, boundary := true }
        = some t ∧
      Vi twoTriangles t =
        Vi twoTriangles { ei := 2, fi := 0, reverse := false, boundary := true }) ∧
    (∃ t, iterHE twoTriangles 6 { ei := 1, fi := 0, reverse := true, boundary := false }
        = some t ∧
      Vi twoTriangles t =
        Vi twoTriangles { ei := 1, fi := 0, reverse := true, boundary := false }) ∧
    (∃ t, iterHE twoTriangles 6 { ei := 0, fi := 0, reverse := true, boundary := true }
        = some t ∧
      Vi twoTriangles t =
        Vi twoTriangles { ei := 0, fi := 0, reverse := true, boundary := true }) ∧
    iterHE twoTriangles 6 { ei := 2, fi := 0, reverse := false, boundary := true } =
      some { ei := 2, fi := 1, reverse := true, boundary := false } :=
  ⟨iterHE_keeps_Vi twoTriangles _ twoTriangles_mirrorConsistent
      twoTriangles_vertexConsistent (by simp [ValidState, twoTriangles]) (by decide) 6
      (by decide),
   iterHE_keeps_Vi twoTriangles _ twoTriangles_mirrorConsistent
      twoTriangles_vertexConsistent (by simp [ValidState, twoTriangles]) (by decide) 6
      (by decide),
   iterHE_keeps_Vi twoTriangles _ twoTriangles_mirrorConsistent
      twoTriangles_vertexConsistent (by simp [ValidState, twoTriangles]) (by decide) 6
      (by decide),
   iterHE_keeps_Vi twoTriangles _ twoTriangles_mirrorConsistent
      twoTriangles_vertexConsistent (by simp [ValidState, twoTriangles]) (by decide) 6
      (by decide),
   by decide⟩

/-- C14: from a valid state, `nextFE()` called on an interior edge returns
true, for any budget, with exactly the state of one `flipF()` followed by one
`flipE()`; whenever it returns, the flag is true exactly when the edge it was
called on is not a boundary edge; and on a boundary edge of mirror-consistent
tables it does return (false) within a budget of `3 * F.rows()` passes. -/
theorem nextFE_flag (m : Tables) (s : State) (hv : ValidState m s) :
    (m.FF s.fi s.ei ≠ -1 →
      ∀ fuel, nextFE m fuel s = some (true, flipE (flipF m s).2)) ∧
    (∀ fuel b t, nextFE m fuel s = some (b, t) →
      ((b = true ↔ m.FF s.fi s.ei ≠ -1) ∧
       (m.FF s.fi s.ei ≠ -1 → t = flipE (flipF m s).2))) ∧
    (m.FF s.fi s.ei = -1 → MirrorConsistent m → ∀ fuel, 3 * m.rows ≤ fuel →
      ∃ t, nextFE m fuel s = some (false, t)) := by
  refine ⟨?_, ?_, ?_⟩
  · intro hi fuel
    simp [nextFE, isBoundaryE, hi]
  · intro fuel b t h
    by_cases hi : m.FF s.fi s.ei = -1
    · simp only [nextFE, isBoundaryE, hi, beq_self_eq_true, if_true] at h
      cases hs : searchLoop m fuel s with
      | none => rw [hs] at h; simp at h
      | some u =>
        rw [hs] at h
        simp only [Option.map_some', Option.some.injEq, Prod.mk.injEq] at h
        simp [← h.1, hi]
    · simp only [nextFE, isBoundaryE, hi, beq_iff_eq, if_false, Option.some.injEq,
        Prod.mk.injEq] at h
      simp [← h.1, ← h.2, hi]
  · intro hi hm fuel hfuel
    obtain ⟨k, _, _, hres, _⟩ := searchLoop_total m hm s hv hi fuel hfuel
    exact ⟨_, by simp only [nextFE, isBoundaryE, hi, beq_self_eq_true, if_true, hres]; rfl⟩

/-- Witness of C14: on `fourFan`, one call from the interior edge shared by `a`
and `b` and one call from the boundary edge of `d` at `v`. -/
theorem nextFE_flag_witness :
    nextFE fourFan 12 { ei := 2, fi := 0, reverse := true, boundary := false } =
      some (true, flipE (flipF fourFan
        { ei := 2, fi := 0, reverse := true, boundary := false }).2) ∧
    (∃ t, nextFE fourFan 12 { ei := 2, fi := 3, reverse := true, boundary := false } =
      some (false, t)) :=
  ⟨(nextFE_flag fourFan { ei := 2, fi := 0, reverse := true, boundary := false }
      (by simp [ValidState, fourFan])).1 (by decide) 12,
   (nextFE_flag fourFan { ei := 2, fi := 3, reverse := true, boundary := false }
      (by simp [ValidState, fourFan])).2.2 (by decide) fourFan_mirrorConsistent 12
      (by decide)⟩

/-- C15: on the four-triangle fan `fourFan` (faces `a, b, c, d = 0, 1, 2, 3`
counterclockwise around `v = 0`, boundary edges at `v` on `a` and on `d`), start
in face `a` on the position whose active vertex is `v` and whose first move
goes counterclockwise into `b`.  After `n` calls of `nextFE()` the cursor is in
face `n % 4`, so the faces follow `a, b, c, d, a, b, c, ...` with period 4, and
the active vertex is always `v`. -/
theorem nextFE_fourFan_cycle (fuel : Nat) (hfuel : 4 ≤ fuel) (n : Nat) :
    ValidState fourFan { ei := 2, fi := 0, reverse := true, boundary := false } ∧
    Vi fourFan { ei := 2, fi := 0, reverse := true, boundary := false } = 0 ∧
    times (nextFEState fourFan fuel) n
        { ei := 2, fi := 0, reverse := true, boundary := false } =
      some { ei := 2, fi := ((n % 4 : Nat) : Int), reverse := true, boundary := false } ∧
    Vi fourFan { ei := 2, fi := ((n % 4 : Nat) : Int), reverse := true,
                 boundary := false } = 0 := by
  refine ⟨by simp [ValidState, fourFan], by decide, ?_, ?_⟩
  · induction n with
    | zero => rfl
    | succ k ih =>
      have hk : k % 4 < 4 := Nat.mod_lt _ (by decide)
      simp only [times, ih, Option.some_bind, nextFEState,
        nextFE_fourFan_step fuel hfuel (k % 4) hk, Option.map_some']
      have : (k % 4 + 1) % 4 = (k + 1) % 4 := by omega
      rw [this]
  · have hk : n % 4 < 4 := Nat.mod_lt _ (by decide)
    generalize n % 4 = i at hk
    interval_cases i <;> decide

/-- Witness of C15: six calls from face `a` end in face `c`, the seventh face
of `a, b, c, d, a, b, c`. -/
theorem nextFE_fourFan_cycle_witness :
    times (nextFEState fourFan 12) 6
        { ei := 2, fi := 0, reverse := true, boundary := false } =
      some { ei := 2, fi := ((6 % 4 : Nat) : Int), reverse := true, boundary := false } :=
  (nextFE_fourFan_cycle 12 (by decide) 6).2.2.1

/-- Counterexample to C16: along one full cycle `a, b, c, d, a` of `fourFan`
the four `nextFE()` calls report true, true, true, false: false is reported at
one transition only, the wrap-around from `d` to `a`, not at two.  Walking the
other way round (`a, d, c, b, a`) it is again one transition, from `a` to `d`. -/
theorem nextFE_fourFan_flags :
    nextFE fourFan 12 { ei := 2, fi := 0, reverse := true, boundary := false } =
      some (true, { ei := 2, fi := 1, reverse := true, boundary := false }) ∧
    nextFE fourFan 12 { ei := 2, fi := 1, reverse := true, boundary := false } =
      some (true, { ei := 2, fi := 2, reverse := true, boundary := false }) ∧
    nextFE fourFan 12 { ei := 2, fi := 2, reverse := true, boundary := false } =
      some (true, { ei := 2, fi := 3, reverse := true, boundary := false }) ∧
    nextFE fourFan 12 { ei := 2, fi := 3, reverse := true, boundary := false } =
      some (false, { ei := 2, fi := 0, reverse := true, boundary := false }) ∧
    ((List.range 4).filter (fun i =>
        (nextFE fourFan 12 (State.mk 2 (i : Int) true false)).map Prod.fst
          == some false)).length = 1 ∧
    nextFE fourFan 12 { ei := 0, fi := 0, reverse := false, boundary := false } =
      some (false, { ei := 0, fi := 3, reverse := false, boundary := false }) ∧
    nextFE fourFan 12 { ei := 0, fi := 3, reverse := false, boundary := false } =
      some (true, { ei := 0, fi := 2, reverse := false, boundary := false }) ∧
    nextFE fourFan 12 { ei := 0, fi := 2, reverse := false, boundary := false } =
      some (true, { ei := 0, fi := 1, reverse := false, boundary := false }) ∧
    nextFE fourFan 12 { ei := 0, fi := 1, reverse := false, boundary := false } =
      some (true, { ei := 0, fi := 0, reverse := false, boundary := false }) := by
  refine ⟨by decide, by decide, by decide, by decide, by decide, by decide, by decide,
    by decide, by decide⟩

/-- C16 (amended): while `nextFE()` walks the cycle `a, b, c, d, a, ...` of
`fourFan`, the call made after `n` earlier calls reports false exactly when
`n % 4 = 3`, that is at the single transition from `d` back to `a` that skips
the border, and true at the three other transitions of each cycle. -/
theorem nextFE_fourFan_flag_cycle (fuel : Nat) (hfuel : 4 ≤ fuel) (n : Nat) :
    ((times (nextFEState fourFan fuel) n
        { ei := 2, fi := 0, reverse := true, boundary := false }).bind
      (nextFE fourFan fuel)).map Prod.fst = some (decide (n % 4 ≠ 3)) := by
  have hk : n % 4 < 4 := Nat.mod_lt _ (by decide)
  have hstate : times (nextFEState fourFan fuel) n
      { ei := 2, fi := 0, reverse := true, boundary := false } =
      some { ei := 2, fi := ((n % 4 : Nat) : Int), reverse := true, boundary := false } := by
    induction n with
    | zero => rfl
    | succ k ih =>
      have hk2 : k % 4 < 4 := Nat.mod_lt _ (by decide)
      simp only [times, ih hk2, Option.some_bind, nextFEState,
        nextFE_fourFan_step fuel hfuel (k % 4) hk2, Option.map_some']
      have : (k % 4 + 1) % 4 = (k + 1) % 4 := by omega
      rw [this]
  rw [hstate, Option.some_bind, nextFE_fourFan_step fuel hfuel (n % 4) hk]
  rfl

/-- Witness of C16 (amended): the fourth call of the walk reports false, the
fifth reports true. -/
theorem nextFE_fourFan_flag_cycle_witness :
    ((times (nextFEState fourFan 12) 3
        { ei := 2, fi := 0, reverse := true, boundary := false }).bind
      (nextFE fourFan 12)).map Prod.fst = some (decide (3 % 4 ≠ 3)) ∧
    ((times (nextFEState fourFan 12) 4
        { ei := 2, fi := 0, reverse := true, boundary := false }).bind
      (nextFE fourFan 12)).map Prod.fst = some (decide (4 % 4 ≠ 3)) :=
  ⟨nextFE_fourFan_flag_cycle 12 (by decide) 3, nextFE_fourFan_flag_cycle 12 (by decide) 4⟩

/-- C17: `nextHE()` terminates.  On in-range, mirror-consistent tables, from a
valid state whose boundary flag is set only on a boundary edge, `nextHE()`
returns for every budget of at least `3 * F.rows()` loop passes; when the
boundary flag is set, its search loop (entered at the state itself, or at
`flipV` of it when reverse is set) stops at the first boundary edge it meets,
after at most `3 * F.rows()` passes.  The same holds for the loop of `nextFE()`
started on a boundary edge, which then returns. -/
theorem nextHE_terminates (m : Tables) (hm : MirrorConsistent m) (s : State)
    (hv : ValidState m s) (hb : s.boundary = true → m.FF s.fi s.ei = -1)
    (fuel : Nat) (hfuel : 3 * m.rows ≤ fuel) :
    (∃ t, nextHE m fuel s = some t) ∧
    (s.boundary = true →
      ∃ k, 1 ≤ k ∧ k ≤ 3 * m.rows ∧
        isBoundaryE m ((loopBody m)^[k] (if s.reverse then flipV s else s)) = true ∧
        (∀ i, 1 ≤ i → i < k →
          isBoundaryE m ((loopBody m)^[i] (if s.reverse then flipV s else s)) = false) ∧
        searchLoop m fuel (if s.reverse then flipV s else s) =
          some ((loopBody m)^[k] (if s.reverse then flipV s else s))) ∧
    (m.FF s.fi s.ei = -1 →
      (∃ k, 1 ≤ k ∧ k ≤ 3 * m.rows ∧
        isBoundaryE m ((loopBody m)^[k] s) = true ∧
        (∀ i, 1 ≤ i → i < k → isBoundaryE m ((loopBody m)^[i] s) = false) ∧
        searchLoop m fuel s = some ((loopBody m)^[k] s)) ∧
      ∃ r, nextFE m fuel s = some r) := by
  have hentry : s.boundary = true →
      ∃ k, 1 ≤ k ∧ k ≤ 3 * m.rows ∧
        isBoundaryE m ((loopBody m)^[k] (if s.reverse then flipV s else s)) = true ∧
        (∀ i, 1 ≤ i → i < k →
          isBoundaryE m ((loopBody m)^[i] (if s.reverse then flipV s else s)) = false) ∧
        searchLoop m fuel (if s.reverse then flipV s else s) =
          some ((loopBody m)^[k] (if s.reverse then flipV s else s)) := by
    intro hbt
    have hv2 : ValidState m (if s.reverse then flipV s else s) := by
      split
      · exact hv
      · exact hv
    have hb2 : m.FF (if s.reverse then flipV s else s).fi
        (if s.reverse then flipV s else s).ei = -1 := by
      split
      · exact hb hbt
      · exact hb hbt
    obtain ⟨k, h1, h2, h3, h4, h5, _⟩ := searchLoop_total m hm _ hv2 hb2 fuel hfuel
    exact ⟨k, h1, h2, h4, h5, h3⟩
  refine ⟨?_, hentry, ?_⟩
  · cases hbd : s.boundary
    · exact ⟨_, by simp only [nextHE, hbd]; rfl⟩
    · obtain ⟨k, _, _, _, _, hres⟩ := hentry hbd
      cases hr : s.reverse
      · simp only [hr, Bool.false_eq_true, if_false] at hres
        exact ⟨_, by simp only [nextHE, hbd, hr, if_true, Bool.false_eq_true, if_false, hres]; rfl⟩
      · simp only [hr, if_true] at hres
        exact ⟨_, by simp only [nextHE, hbd, hr, if_true, hres]; rfl⟩
  · intro hi
    obtain ⟨k, h1, h2, h3, h4, h5, _⟩ := searchLoop_total m hm s hv hi fuel hfuel
    refine ⟨⟨k, h1, h2, h4, h5, h3⟩, ?_⟩
    exact ⟨_, by simp only [nextFE, isBoundaryE, hi, beq_self_eq_true, if_true, h3]; rfl⟩

/-- Witness of C17: on `fourFan`, `nextHE()` from the virtual boundary position
on the boundary edge of `a` at `v` walks through all four faces and stops on the
boundary edge of `d`. -/
theorem nextHE_terminates_witness :
    (∃ t, nextHE fourFan 12 { ei := 0, fi := 0, reverse := false, boundary := true }
      = some t) ∧
    nextHE fourFan 12 { ei := 0, fi := 0, reverse := false, boundary := true } =
      some { ei := 2, fi := 3, reverse := false, boundary := true } :=
  ⟨(nextHE_terminates fourFan fourFan_mirrorConsistent
      { ei := 0, fi := 0, reverse := false, boundary := true }
      (by simp [ValidState, fourFan]) (by decide) 12 (by decide)).1,
   by decide⟩

/-- C19: `flipE()` changes solely the edge.  For `e ∈ {0,1,2}` the face, the
local active-vertex index `Vii()` and the active vertex `Vi()` are unchanged,
and the new edge index is a local edge index different from the old one. -/
theorem flipE_keeps_vertex (m : Tables) (s : State) (h0 : 0 ≤ s.ei) (h2 : s.ei ≤ 2) :
    (flipE s).fi = s.fi ∧ Vii (flipE s) = Vii s ∧ Vi m (flipE s) = Vi m s ∧
    (flipE s).ei ≠ s.ei ∧ 0 ≤ (flipE s).ei ∧ (flipE s).ei ≤ 2 := by
  obtain ⟨e, f, r, b⟩ := s
  simp only at h0 h2
  have hvii : Vii (flipE { ei := e, fi := f, reverse := r, boundary := b }) =
      Vii { ei := e, fi := f, reverse := r, boundary := b } := by
    interval_cases e <;> cases r <;> simp [Vii, flipE, Eif] <;> decide
  refine ⟨rfl, hvii, ?_, ?_, ?_, ?_⟩
  · simp only [Vi, hvii]
    rfl
  · interval_cases e <;> cases r <;> simp [flipE, Eif] <;> decide
  · interval_cases e <;> cases r <;> simp [flipE, Eif] <;> decide
  · interval_cases e <;> cases r <;> simp [flipE, Eif] <;> decide

/-- Witness of C19: edge 2 of face 1 of `twoTriangles`, reverse cleared. -/
theorem flipE_keeps_vertex_witness :
    Vi twoTriangles (flipE { ei := 2, fi := 1, reverse := false, boundary := false }) =
      Vi twoTriangles { ei := 2, fi := 1, reverse := false, boundary := false } ∧
    (flipE { ei := 2, fi := 1, reverse := false, boundary := false }).ei ≠ 2 :=
  ⟨(flipE_keeps_vertex twoTriangles { ei := 2, fi := 1, reverse := false, boundary := false }
      (by decide) (by decide)).2.2.1,
   (flipE_keeps_vertex twoTriangles { ei := 2, fi := 1, reverse := false, boundary := false }
      (by decide) (by decide)).2.2.2.1⟩

/-- C20: `flipF()` changes solely the face.  From a valid state on an interior
edge, with `g = FF(f,e)` and `j = FFi(f,e)` satisfying `F(g,j) = F(f,(e+1)%3)`
and `F(g,(j+1)%3) = F(f,e)` (the `%` on `j` being the one of the code), a
`flipF()` succeeds and moves to face `g`, and both the active vertex `Vi()` and
the flipped vertex `Vif()` are the same as before. -/
theorem flipF_keeps_edge_vertices (m : Tables) (s : State) (hv : ValidState m s)
    (hi : m.FF s.fi s.ei ≠ -1)
    (h1 : m.F (m.FF s.fi s.ei) (m.FFi s.fi s.ei) = m.F s.fi ((s.ei + 1) % 3))
    (h2 : m.F (m.FF s.fi s.ei) (Int.tmod (m.FFi s.fi s.ei + 1) 3) = m.F s.fi s.ei) :
    (flipF m s).1 = true ∧ (flipF m s).2.fi = m.FF s.fi s.ei ∧
    Vi m (flipF m s).2 = Vi m s ∧ Vif m (flipF m s).2 = Vif m s := by
  obtain ⟨_, _, he0, he2⟩ := hv
  have he := tmod_succ_of_valid s.ei he0 he2
  rw [flipF_of_interior m s hi]
  cases hr : s.reverse <;> simp [Vi, Vii, Vif, Viif, hr, h1, h2, he]

/-- Witness of C20: crossing the shared edge of `twoTriangles` from face 0. -/
theorem flipF_keeps_edge_vertices_witness :
    Vi twoTriangles
        (flipF twoTriangles { ei := 1, fi := 0, reverse := false, boundary := false }).2 =
      Vi twoTriangles { ei := 1, fi := 0, reverse := false, boundary := false } ∧
    Vif twoTriangles
        (flipF twoTriangles { ei := 1, fi := 0, reverse := false, boundary := false }).2 =
      Vif twoTriangles { ei := 1, fi := 0, reverse := false, boundary := false } :=
  ⟨(flipF_keeps_edge_vertices twoTriangles
      { ei := 1, fi := 0, reverse := false, boundary := false }
      (by simp [ValidState, twoTriangles]) (by decide) (by decide) (by decide)).2.2.1,
   (flipF_keeps_edge_vertices twoTriangles
      { ei := 1, fi := 0, reverse := false, boundary := false }
      (by simp [ValidState, twoTriangles]) (by decide) (by decide) (by decide)).2.2.2⟩

/-- C18: `isBoundaryV()` terminates.  On in-range, mirror-consistent tables,
from a valid state whose boundary flag is set only on a boundary edge, the
loop of `isBoundaryV()` stops after `n + 1` iterations with `n < 3 * F.rows()`:
the scratch cursor has made `n` `iterHE()` steps from its normalized start to a
state `w`, and either `w` is on a boundary edge or the next `iterHE()` step
brings the cursor back to exactly the normalized start; the value returned is
whether `w` is on a boundary edge.  On tables without any boundary edge the
value returned is false. -/
theorem isBoundaryV_terminates (m : Tables) (hm : MirrorConsistent m) (s : State)
    (hv : ValidState m s) (hb : s.boundary = true → m.FF s.fi s.ei = -1)
    (fuel : Nat) (hfuel : 3 * m.rows ≤ fuel) :
    (∃ (n : Nat) (w t : State), n < 3 * m.rows ∧
      times (iterHE m fuel) n (normalized m s) = some w ∧
      iterHE m fuel w = some t ∧
      (isBoundaryE m w = true ∨ t = normalized m s) ∧
      isBoundaryV m fuel s = some (isBoundaryE m w)) ∧
    ((∀ f e : Int, 0 ≤ f → f < (m.rows : Int) → 0 ≤ e → e ≤ 2 → m.FF f e ≠ -1) →
      isBoundaryV m fuel s = some false) := by
  have hrows : 0 < m.rows := by
    obtain ⟨h0, h1, _, _⟩ := hv
    omega
  have hmain : ∃ (n : Nat) (w t : State), n < 3 * m.rows ∧
      times (iterHE m fuel) n (normalized m s) = some w ∧
      iterHE m fuel w = some t ∧
      (isBoundaryE m w = true ∨ t = normalized m s) ∧
      isBoundaryV m fuel s = some (isBoundaryE m w) ∧ ValidState m w := by
    rcases normalized_cases m hm s hv hb with hp | ⟨hv0, _, _, hbe⟩
    · obtain ⟨N, hN, hpre, hlast, hplain, hres⟩ :=
        isBoundaryVLoop_plain m hm (normalized m s) hp fuel hfuel
      have hstep : ∀ i, i < N → iterHE m fuel ((loopBody m)^[i] (normalized m s)) =
          some ((loopBody m)^[i + 1] (normalized m s)) := by
        intro i hi
        rw [Function.iterate_succ_apply']
        exact iterHE_plain_interior m hm _ (hplain i (by omega))
          ((isBoundaryE_eq_false_iff m _).1 (hpre i hi).1) fuel
      have htimes := times_of_steps (iterHE m fuel)
        (fun i => (loopBody m)^[i] (normalized m s)) N hstep
      by_cases hbd : isBoundaryE m ((loopBody m)^[N] (normalized m s)) = true
      · obtain ⟨t, ht⟩ := iterHE_total m hm _ (hplain N (le_refl _)).1
          (by intro h; rw [(hplain N (le_refl _)).2.2] at h; exact absurd h (by decide))
          fuel hfuel
        exact ⟨N, _, t, hN, htimes, ht, Or.inl hbd, hres, (hplain N (le_refl _)).1⟩
      · have hint : isBoundaryE m ((loopBody m)^[N] (normalized m s)) = false := by
          simpa using hbd
        have hback : (loopBody m)^[N + 1] (normalized m s) = normalized m s := by
          rcases hlast with h | h
          · exact absurd h hbd
          · exact h
        refine ⟨N, _, (loopBody m)^[N + 1] (normalized m s), hN, htimes, ?_,
          Or.inr hback, hres, (hplain N (le_refl _)).1⟩
        rw [Function.iterate_succ_apply']
        exact iterHE_plain_interior m hm _ (hplain N (le_refl _))
          ((isBoundaryE_eq_false_iff m _).1 hint) fuel
    · obtain ⟨hbd, ⟨t, ht⟩, hres⟩ :=
        isBoundaryVLoop_virtual m hm (normalized m s) hv0 hbe fuel hfuel (by omega)
      exact ⟨0, normalized m s, t, by omega, rfl, ht, Or.inl hbd,
        by rw [hbd]; exact hres, hv0⟩
  refine ⟨?_, ?_⟩
  · obtain ⟨n, w, t, h1, h2, h3, h4, h5, _⟩ := hmain
    exact ⟨n, w, t, h1, h2, h3, h4, h5⟩
  · intro hno
    obtain ⟨n, w, t, _, _, _, _, h5, ⟨w0, w1, w2, w3⟩⟩ := hmain
    rw [h5, (isBoundaryE_eq_false_iff m w).2 (hno w.fi w.ei w0 w1 w2 w3)]

/-- Witness of C18: on `grid3`, `isBoundaryV()` from the middle vertex walks the
six faces around it and returns false; from the corner vertex 0 it returns true. -/
theorem isBoundaryV_terminates_witness :
    (∃ (n : Nat) (w t : State), n < 3 * grid3.rows ∧
      times (iterHE grid3 24) n
        (normalized grid3 { ei := 2, fi := 0, reverse := false, boundary := false })
        = some w ∧
      iterHE grid3 24 w = some t ∧
      (isBoundaryE grid3 w = true ∨
        t = normalized grid3 { ei := 2, fi := 0, reverse := false, boundary := false }) ∧
      isBoundaryV grid3 24 { ei := 2, fi := 0, reverse := false, boundary := false } =
        some (isBoundaryE grid3 w)) ∧
    isBoundaryV grid3 24 { ei := 2, fi := 0, reverse := false, boundary := false } =
      some false ∧
    isBoundaryV grid3 24 { ei := 0, fi := 0, reverse := false, boundary := false } =
      some true :=
  ⟨(isBoundaryV_terminates grid3 grid3_mirrorConsistent
      { ei := 2, fi := 0, reverse := false, boundary := false }
      (by simp [ValidState, grid3]) (by decide) 24 (by decide)).1,
   by decide, by decide⟩

/-- C12: on mirror-consistent tables, let the faces around the vertex `v` form
one closed fan of `k` corners (an interior vertex with `k` incident triangles).
From a valid state with reverse and boundary cleared whose active vertex is
`v`, `k` calls of `iterHE()` return exactly the starting state, and `j` calls
with `0 < j < k` end in a different state. -/
theorem iterHE_closed_fan_period (m : Tables) (hm : MirrorConsistent m) (v : Int)
    (k : Nat) (c : Nat → Int × Int) (hfan : FanAt m v k c true) (s : State)
    (hv : ValidState m s) (hr : s.reverse = false) (hb : s.boundary = false)
    (hvi : Vi m s = v) (fuel : Nat) :
    times (iterHE m fuel) k s = some s ∧
    ∀ j, 0 < j → j < k → ∃ t, times (iterHE m fuel) j s = some t ∧ t ≠ s := by
  obtain ⟨i, hi, rfl⟩ := exists_corner_of_plain m v k c true hfan s ⟨hv, hr, hb⟩ hvi
  constructor
  · rw [iterHE_closed_fan_times m hm v k c hfan fuel i hi k, Nat.add_mod_right,
      Nat.mod_eq_of_lt hi]
  · intro j hj0 hjk
    refine ⟨_, iterHE_closed_fan_times m hm v k c hfan fuel i hi j, ?_⟩
    intro hEq
    have hc : c ((i + j) % k) = c i := by
      have h1 := congrArg State.fi hEq
      have h2 := congrArg State.ei hEq
      simp only [cornerState] at h1 h2
      exact Prod.ext h1 h2
    have hidx := hfan.2.2.1 _ _ (Nat.mod_lt _ hfan.1) hi hc
    by_cases hlt : i + j < k
    · rw [Nat.mod_eq_of_lt hlt] at hidx
      omega
    · have hsub : (i + j) % k = i + j - k := by
        rw [Nat.mod_eq_sub_mod (by omega), Nat.mod_eq_of_lt (by omega)]
      omega

/-- Witness of C12: the middle vertex of `grid3` has six incident triangles;
from the plain state on edge 2 of face 0, six `iterHE()` calls return to the
start and fewer do not. -/
theorem iterHE_closed_fan_period_witness :
    FanAt grid3 4 6 grid3Ring true ∧
    Vi grid3 { ei := 2, fi := 0, reverse := false, boundary := false } = 4 ∧
    times (iterHE grid3 0) 6 { ei := 2, fi := 0, reverse := false, boundary := false } =
      some { ei := 2, fi := 0, reverse := false, boundary := false } ∧
    (∀ j, 0 < j → j < 6 →
      ∃ t, times (iterHE grid3 0) j
          { ei := 2, fi := 0, reverse := false, boundary := false } = some t ∧
        t ≠ { ei := 2, fi := 0, reverse := false, boundary := false }) :=
  ⟨grid3_ring_fan, by decide,
   (iterHE_closed_fan_period grid3 grid3_mirrorConsistent 4 6 grid3Ring grid3_ring_fan
      { ei := 2, fi := 0, reverse := false, boundary := false }
      (by simp [ValidState, grid3]) rfl rfl (by decide) 0).1,
   (iterHE_closed_fan_period grid3 grid3_mirrorConsistent 4 6 grid3Ring grid3_ring_fan
      { ei := 2, fi := 0, reverse := false, boundary := false }
      (by simp [ValidState, grid3]) rfl rfl (by decide) 0).2⟩

/-- C13: on mirror-consistent and vertex-consistent tables that are manifold at
the active vertex `v = Vi()` (the faces around `v` form one closed or open
fan), from a valid state whose boundary flag is set only on a boundary edge,
`isBoundaryV()` returns, and it returns true exactly when `v` has an incident
boundary edge: a valid face `f` and local edge `e` with `FF(f,e) = -1` and
`F(f,e) = v` or `F(f,(e+1)%3) = v`. -/
theorem isBoundaryV_iff_incident_boundary (m : Tables) (hm : MirrorConsistent m)
    (hvc : VertexConsistent m) (s : State) (hv : ValidState m s)
    (hb : s.boundary = true → m.FF s.fi s.ei = -1)
    (hman : VertexManifoldAt m (Vi m s)) (fuel : Nat) (hfuel : 3 * m.rows ≤ fuel) :
    ∃ b, isBoundaryV m fuel s = some b ∧
      (b = true ↔
        ∃ f e : Int, 0 ≤ f ∧ f < (m.rows : Int) ∧ 0 ≤ e ∧ e ≤ 2 ∧ m.FF f e = -1 ∧
          (m.F f e = Vi m s ∨ m.F f ((e + 1) % 3) = Vi m s)) := by
  have hrows : 0 < m.rows := by
    obtain ⟨h0, h1, _, _⟩ := hv
    omega
  have hvn := Vi_normalized m hvc s hv hb
  rcases normalized_cases m hm s hv hb with hp | ⟨hv0, hr0, _, hbe⟩
  · obtain ⟨N, hN, hpre, hlast, hplain, hres⟩ :=
      isBoundaryVLoop_plain m hm (normalized m s) hp fuel hfuel
    have hViN := plain_orbit_Vi m hm hvc (normalized m s) hp N (fun i hi => (hpre i hi).1)
    refine ⟨_, hres, ?_⟩
    by_cases hbd : isBoundaryE m ((loopBody m)^[N] (normalized m s)) = true
    · -- a boundary edge was met: it leaves the active vertex
      obtain ⟨⟨w0, w1, w2, w3⟩, wr, _⟩ := hplain N (le_refl _)
      have hF : m.F ((loopBody m)^[N] (normalized m s)).fi
          ((loopBody m)^[N] (normalized m s)).ei = Vi m s := by
        rw [← hvn, ← hViN]
        simp [Vi, Vii, wr]
      simp only [hbd, true_iff]
      exact ⟨_, _, w0, w1, w2, w3, (isBoundaryE_eq_true_iff m _).1 hbd, Or.inl hF⟩
    · -- the walk came back to its start: the fan is closed
      have hint : isBoundaryE m ((loopBody m)^[N] (normalized m s)) = false := by
        simpa using hbd
      have hback : (loopBody m)^[N + 1] (normalized m s) = normalized m s := by
        rcases hlast with h | h
        · exact absurd h hbd
        · exact h
      have hall : ∀ i, i ≤ N →
          isBoundaryE m ((loopBody m)^[i] (normalized m s)) = false := by
        intro i hi
        rcases Nat.lt_or_eq_of_le hi with h | h
        · exact (hpre i h).1
        · rw [h]; exact hint
      simp only [hint, Bool.false_eq_true, false_iff]
      obtain ⟨k, c, closed, hfan⟩ := hman
      obtain ⟨i0, hi0, hc0⟩ :=
        exists_corner_of_plain m (Vi m s) k c closed hfan (normalized m s) hp hvn
      have hreach : k - 1 - i0 ≤ N := by
        by_contra hlt
        have horb := fan_orbit m hm (Vi m s) k c closed hfan i0 (N + 1) (by omega)
        rw [← hc0, hback, hc0] at horb
        have hc : c i0 = c (i0 + (N + 1)) := by
          have h1 := congrArg State.fi horb
          have h2 := congrArg State.ei horb
          simp only [cornerState] at h1 h2
          exact Prod.ext h1 h2
        have := hfan.2.2.1 _ _ hi0 (by omega) hc
        omega
      have hlastc : m.FF (c (k - 1)).1 (c (k - 1)).2 ≠ -1 := by
        have horb := fan_orbit m hm (Vi m s) k c closed hfan i0 (k - 1 - i0) (by omega)
        rw [← hc0, show i0 + (k - 1 - i0) = k - 1 from by omega] at horb
        have := (isBoundaryE_eq_false_iff m _).1 (hall (k - 1 - i0) hreach)
        rw [horb] at this
        exact this
      have hclosed : closed = true := by
        cases closed
        · exact absurd (hfan.2.2.2.2.2.2 rfl).1 hlastc
        · rfl
      subst hclosed
      rintro ⟨f, e, hf0, hf1, he0, he2, hfe, hor⟩
      exact closed_fan_no_boundary m hm (Vi m s) k c hfan f e hf0 hf1 he0 he2 hfe hor
  · -- both flags set on a boundary edge: true at once
    obtain ⟨_, _, hres⟩ :=
      isBoundaryVLoop_virtual m hm (normalized m s) hv0 hbe fuel hfuel (by omega)
    refine ⟨true, hres, ?_⟩
    simp only [true_iff]
    obtain ⟨w0, w1, w2, w3⟩ := hv0
    refine ⟨_, _, w0, w1, w2, w3, hbe, Or.inr ?_⟩
    rw [← hvn]
    simp [Vi, Vii, hr0, tmod_succ_of_valid _ w2 w3]

/-- Witness of C13: on `grid3`, `isBoundaryV()` returns false at the middle
vertex 4, which is surrounded by faces, and true at the border vertex 1. -/
theorem isBoundaryV_iff_incident_boundary_witness :
    (∃ b, isBoundaryV grid3 24 { ei := 2, fi := 0, reverse := false, boundary := false }
        = some b ∧
      (b = true ↔
        ∃ f e : Int, 0 ≤ f ∧ f < (grid3.rows : Int) ∧ 0 ≤ e ∧ e ≤ 2 ∧
          grid3.FF f e = -1 ∧
          (grid3.F f e =
              Vi grid3 { ei := 2, fi := 0, reverse := false, boundary := false } ∨
            grid3.F f ((e + 1) % 3) =
              Vi grid3 { ei := 2, fi := 0, reverse := false, boundary := false }))) ∧
    (∃ b, isBoundaryV grid3 24 { ei := 0, fi := 3, reverse := false, boundary := false }
        = some b ∧
      (b = true ↔
        ∃ f e : Int, 0 ≤ f ∧ f < (grid3.rows : Int) ∧ 0 ≤ e ∧ e ≤ 2 ∧
          grid3.FF f e = -1 ∧
          (grid3.F f e =
              Vi grid3 { ei := 0, fi := 3, reverse := false, boundary := false } ∨
            grid3.F f ((e + 1) % 3) =
              Vi grid3 { ei := 0, fi := 3, reverse := false, boundary := false }))) ∧
    isBoundaryV grid3 24 { ei := 2, fi := 0, reverse := false, boundary := false } =
      some false ∧
    isBoundaryV grid3 24 { ei := 0, fi := 3, reverse := false, boundary := false } =
      some true :=
  ⟨isBoundaryV_iff_incident_boundary grid3 grid3_mirrorConsistent grid3_vertexConsistent
      { ei := 2, fi := 0, reverse := false, boundary := false }
      (by simp [ValidState, grid3]) (by decide) ⟨6, grid3Ring, true, grid3_ring_fan⟩ 24
      (by decide),
   isBoundaryV_iff_incident_boundary grid3 grid3_mirrorConsistent grid3_vertexConsistent
      { ei := 0, fi := 3, reverse := false, boundary := false }
      (by simp [ValidState, grid3]) (by decide) ⟨3, grid3Fan1, false, grid3_fan1⟩ 24
      (by decide),
   by decide, by decide⟩

/-- C21: for `e ∈ {0,1,2}` the local vertex accessors name the two endpoints of
the current edge.  `Vii()` is `e` when reverse is cleared and `(e+1)%3` when it
is set, `Viif()` is the other one; `Vii0()` is `e` when boundary is cleared and
`(e+1)%3` when it is set, `Vii1()` is the other one.  So both pairs are the two
different indices `e` and `(e+1)%3`, all four values are in `{0,1,2}`, and
`flipV()` exchanges `Vii()` and `Viif()` and keeps `Vii0()` and `Vii1()`. -/
theorem vertex_accessors (s : State) (h0 : 0 ≤ s.ei) (h2 : s.ei ≤ 2) :
    Vii s = (if s.reverse = true then (s.ei + 1) % 3 else s.ei) ∧
    Viif s = (if s.reverse = true then s.ei else (s.ei + 1) % 3) ∧
    Vii0 s = (if s.boundary = true then (s.ei + 1) % 3 else s.ei) ∧
    Vii1 s = (if s.boundary = true then s.ei else (s.ei + 1) % 3) ∧
    ((Vii s = s.ei ∧ Viif s = (s.ei + 1) % 3) ∨
      (Vii s = (s.ei + 1) % 3 ∧ Viif s = s.ei)) ∧
    ((Vii0 s = s.ei ∧ Vii1 s = (s.ei + 1) % 3) ∨
      (Vii0 s = (s.ei + 1) % 3 ∧ Vii1 s = s.ei)) ∧
    s.ei ≠ (s.ei + 1) % 3 ∧ Vii s ≠ Viif s ∧ Vii0 s ≠ Vii1 s ∧
    (0 ≤ Vii s ∧ Vii s ≤ 2) ∧ (0 ≤ Viif s ∧ Viif s ≤ 2) ∧
    (0 ≤ Vii0 s ∧ Vii0 s ≤ 2) ∧ (0 ≤ Vii1 s ∧ Vii1 s ≤ 2) ∧
    Vii (flipV s) = Viif s ∧ Viif (flipV s) = Vii s ∧
    Vii0 (flipV s) = Vii0 s ∧ Vii1 (flipV s) = Vii1 s := by
  obtain ⟨e, f, r, b⟩ := s
  simp only at h0 h2
  interval_cases e <;> cases r <;> cases b <;>
    simp [Vii, Viif, Vii0, Vii1, flipV] <;> decide

/-- Witness of C21: edge 2 with reverse set and boundary cleared. -/
theorem vertex_accessors_witness :
    Vii { ei := 2, fi := 0, reverse := true, boundary := false } =
      (if true = true then (2 + 1) % 3 else 2) ∧
    Vii (flipV { ei := 2, fi := 0, reverse := true, boundary := false }) =
      Viif { ei := 2, fi := 0, reverse := true, boundary := false } :=
  ⟨(vertex_accessors { ei := 2, fi := 0, reverse := true, boundary := false }
      (by decide) (by decide)).1,
   (vertex_accessors { ei := 2, fi := 0, reverse := true, boundary := false }
      (by decide) (by decide)).2.2.2.2.2.2.2.2.2.2.2.2.2.1⟩

/-- C27: `flipE()` is an involution on the position.  For `e ∈ {0,1,2}` two
calls restore face, edge and reverse and leave boundary cleared, so they
restore the whole state when boundary was cleared; one call changes the edge
index, so the edge index has period exactly 2 under repeated `flipE()`. -/
theorem flipE_involution (s : State) (h0 : 0 ≤ s.ei) (h2 : s.ei ≤ 2) :
    (flipE (flipE s)).fi = s.fi ∧ (flipE (flipE s)).ei = s.ei ∧
    (flipE (flipE s)).reverse = s.reverse ∧ (flipE (flipE s)).boundary = false ∧
    (s.boundary = false → flipE (flipE s) = s) ∧
    (flipE s).ei ≠ s.ei ∧
    (∀ n : Nat, (flipE^[2 * n] s).ei = s.ei ∧ (flipE^[2 * n + 1] s).ei = (flipE s).ei) := by
  have hpair : ∀ t : State, 0 ≤ t.ei → t.ei ≤ 2 →
      flipE (flipE t) = { ei := t.ei, fi := t.fi, reverse := t.reverse, boundary := false } ∧
      (flipE t).ei ≠ t.ei := by
    intro t t0 t2
    obtain ⟨e, f, r, b⟩ := t
    simp only at t0 t2
    interval_cases e <;> cases r <;> simp [flipE, Eif] <;> decide
  have heven : ∀ n : Nat, flipE^[2 * n] s = s ∨
      flipE^[2 * n] s =
        { ei := s.ei, fi := s.fi, reverse := s.reverse, boundary := false } := by
    intro n
    induction n with
    | zero => left; rfl
    | succ k ih =>
      right
      rw [show 2 * (k + 1) = (2 * k + 1) + 1 from by omega,
        Function.iterate_succ_apply', Function.iterate_succ_apply']
      rcases ih with h | h
      · rw [h]; exact (hpair s h0 h2).1
      · rw [h]; exact (hpair _ h0 h2).1
  obtain ⟨h1, h3⟩ := hpair s h0 h2
  refine ⟨by rw [h1], by rw [h1], by rw [h1], by rw [h1], ?_, h3, ?_⟩
  · intro hb
    rw [h1]
    obtain ⟨e, f, r, b⟩ := s
    simp only at hb
    simp [hb]
  · intro n
    constructor
    · rcases heven n with h | h <;> rw [h]
    · rw [Function.iterate_succ_apply']
      rcases heven n with h | h
      · rw [h]
      · rw [h]; simp [flipE, Eif]

/-- Witness of C27: edge 0 of face 7, reverse cleared. -/
theorem flipE_involution_witness :
    flipE (flipE { ei := 0, fi := 7, reverse := false, boundary := false }) =
      { ei := 0, fi := 7, reverse := false, boundary := false } ∧
    (flipE { ei := 0, fi := 7, reverse := false, boundary := false }).ei ≠ 0 :=
  ⟨(flipE_involution { ei := 0, fi := 7, reverse := false, boundary := false }
      (by decide) (by decide)).2.2.2.2.1 rfl,
   (flipE_involution { ei := 0, fi := 7, reverse := false, boundary := false }
      (by decide) (by decide)).2.2.2.2.2.1⟩

/-- C26: `flipHE()` changes to the other half-edge of the same edge.  From a
valid state whose boundary flag is set only on a boundary edge, with the two
vertex-consistency equations at the current edge when it is interior
(`F(g,j) = F(f,(e+1)%3)` and `F(g,(j+1)%3) = F(f,e)` for `g = FF(f,e)`,
`j = FFi(f,e)`, the `%` on `j` being the one of the code), one `flipHE()` call
exchanges the half-edge endpoints: `Vi0()` after is `Vi1()` before and `Vi1()`
after is `Vi0()` before, on a boundary edge as on an interior one. -/
theorem flipHE_swaps_endpoints (m : Tables) (s : State) (hv : ValidState m s)
    (hb : s.boundary = true → m.FF s.fi s.ei = -1)
    (hvc : m.FF s.fi s.ei ≠ -1 →
      m.F (m.FF s.fi s.ei) (m.FFi s.fi s.ei) = m.F s.fi ((s.ei + 1) % 3) ∧
      m.F (m.FF s.fi s.ei) (Int.tmod (m.FFi s.fi s.ei + 1) 3) = m.F s.fi s.ei) :
    Vi0 m (flipHE m s) = Vi1 m s ∧ Vi1 m (flipHE m s) = Vi0 m s := by
  obtain ⟨_, _, he0, he2⟩ := hv
  have he := tmod_succ_of_valid s.ei he0 he2
  by_cases hi : m.FF s.fi s.ei = -1
  · cases hbd : s.boundary <;>
      simp [flipHE, flipF_of_boundary m s hi, Vi0, Vi1, Vii0, Vii1, hbd]
  · have hbd : s.boundary = false := by
      cases h : s.boundary
      · rfl
      · exact absurd (hb h) hi
    obtain ⟨h1, h2⟩ := hvc hi
    simp [flipHE, flipF_of_interior m s hi, Vi0, Vi1, Vii0, Vii1, hbd, h1, h2, he]

/-- Witness of C26: on `twoTriangles`, across the shared edge from face 0 and on
the boundary edge 2 of face 0. -/
theorem flipHE_swaps_endpoints_witness :
    (Vi0 twoTriangles
        (flipHE twoTriangles { ei := 1, fi := 0, reverse := false, boundary := false }) =
      Vi1 twoTriangles { ei := 1, fi := 0, reverse := false, boundary := false } ∧
     Vi1 twoTriangles
        (flipHE twoTriangles { ei := 1, fi := 0, reverse := false, boundary := false }) =
      Vi0 twoTriangles { ei := 1, fi := 0, reverse := false, boundary := false }) ∧
    (Vi0 twoTriangles
        (flipHE twoTriangles { ei := 2, fi := 0, reverse := false, boundary := true }) =
      Vi1 twoTriangles { ei := 2, fi := 0, reverse := false, boundary := true } ∧
     Vi1 twoTriangles
        (flipHE twoTriangles { ei := 2, fi := 0, reverse := false, boundary := true }) =
      Vi0 twoTriangles { ei := 2, fi := 0, reverse := false, boundary := true }) :=
  ⟨flipHE_swaps_endpoints twoTriangles
      { ei := 1, fi := 0, reverse := false, boundary := false }
      (by simp [ValidState, twoTriangles]) (by decide) (by decide),
   flipHE_swaps_endpoints twoTriangles
      { ei := 2, fi := 0, reverse := false, boundary := true }
      (by simp [ValidState, twoTriangles]) (by decide) (by decide)⟩

/-- C28: `nextHE()` never changes the two flags.  From a state whose boundary
flag is set only on a boundary edge, whenever `nextHE()` returns, reverse and
boundary are what they were before the call, in the plain case and in both
virtual-boundary cases, for any tables; and from a valid such state on
mirror-consistent tables it does return within a budget of `3 * F.rows()`
loop passes. -/
theorem nextHE_keeps_flags (m : Tables) (s : State)
    (hb : s.boundary = true → m.FF s.fi s.ei = -1) :
    (∀ fuel t, nextHE m fuel s = some t →
      t.reverse = s.reverse ∧ t.boundary = s.boundary) ∧
    (ValidState m s → MirrorConsistent m → ∀ fuel, 3 * m.rows ≤ fuel →
      ∃ t, nextHE m fuel s = some t ∧ t.reverse = s.reverse ∧
        t.boundary = s.boundary) := by
  have hmain : ∀ fuel t, nextHE m fuel s = some t →
      t.reverse = s.reverse ∧ t.boundary = s.boundary := by
    intro fuel t h
    cases hbd : s.boundary
    · simp only [nextHE, hbd, Bool.false_eq_true, if_false, Option.some.injEq] at h
      rw [← h]
      exact ⟨rfl, rfl⟩
    · have hbe := hb hbd
      cases hr : s.reverse
      · simp only [nextHE, hbd, hr, if_true, Bool.false_eq_true, if_false] at h
        cases hs : searchLoop m fuel s with
        | none => rw [hs] at h; simp at h
        | some u =>
          rw [hs] at h
          obtain ⟨ur, ub, ue⟩ := searchLoop_flags m fuel s u hs (Or.inl ⟨hr, hbe⟩)
          simp only [Option.map_some', Option.some.injEq] at h
          rw [← h]
          simp [flipV, flipHE, flipF_of_boundary m u ue, ur, ub]
      · simp only [nextHE, hbd, hr, if_true] at h
        cases hs : searchLoop m fuel (flipV s) with
        | none => rw [hs] at h; simp at h
        | some u =>
          rw [hs] at h
          have hfr : (flipV s).reverse = false := by simp [flipV, hr]
          obtain ⟨ur, ub, ue⟩ :=
            searchLoop_flags m fuel (flipV s) u hs (Or.inl ⟨hfr, hbe⟩)
          simp only [Option.map_some', Option.some.injEq] at h
          rw [← h]
          simp [flipHE, flipF_of_boundary m u ue, ur, ub]
  refine ⟨hmain, ?_⟩
  intro hv hm fuel hfuel
  obtain ⟨t, ht⟩ := nextHE_total m hm s hv hb fuel hfuel
  exact ⟨t, ht, hmain fuel t ht⟩

/-- Witness of C28: on `fourFan`, `nextHE()` from the virtual boundary position
on the boundary edge of `a`, with reverse set. -/
theorem nextHE_keeps_flags_witness :
    nextHE fourFan 12 { ei := 0, fi := 0, reverse := true, boundary := true } =
      some { ei := 2, fi := 3, reverse := true, boundary := true } ∧
    (∃ t, nextHE fourFan 12 { ei := 0, fi := 0, reverse := true, boundary := true }
        = some t ∧
      t.reverse = true ∧ t.boundary = true) :=
  ⟨by decide,
   (nextHE_keeps_flags fourFan { ei := 0, fi := 0, reverse := true, boundary := true }
      (by decide)).2 (by simp [ValidState, fourFan]) fourFan_mirrorConsistent 12
      (by decide)⟩

/-- C22: cursor validity is an invariant of every move.  On tables in range,
from a state with `0 ≤ fi < F.rows()` and `ei ∈ {0,1,2}`, the state after
`flipF`, `flipE`, `flipV`, `flipHE`, after `nextHE`, `iterHE`, `nextFE`
whenever they return, and after a successful or failed `init`, is again such a
state; so is every state met inside the search loop, before and after its
`flipF()`, which are the positions at which the tables are read. -/
theorem validState_invariant (m : Tables) (hr : TablesInRange m) (s : State)
    (hv : ValidState m s) :
    ValidState m (flipF m s).2 ∧ ValidState m (flipE s) ∧ ValidState m (flipV s) ∧
    ValidState m (flipHE m s) ∧
    (∀ fuel t, nextHE m fuel s = some t → ValidState m t) ∧
    (∀ fuel t, iterHE m fuel s = some t → ValidState m t) ∧
    (∀ fuel r, nextFE m fuel s = some r → ValidState m r.2) ∧
    (∀ faceIndex edgeIndex reverse,
      ValidState m (init m s faceIndex edgeIndex reverse).2) ∧
    (∀ n : Nat, ValidState m ((loopBody m)^[n] s) ∧
      ValidState m (flipF m ((loopBody m)^[n] s)).2) :=
  ⟨validState_flipF m hr s hv, validState_flipE m s hv, validState_flipV m s hv,
   validState_flipHE m hr s hv,
   fun fuel t h => validState_nextHE m hr s hv fuel t h,
   fun fuel t h => validState_iterHE m hr s hv fuel t h,
   fun fuel r h => validState_nextFE m hr s hv fuel r h,
   fun faceIndex edgeIndex reverse => validState_init m s hv faceIndex edgeIndex reverse,
   fun n => ⟨validState_iterate m hr s hv n,
     validState_flipF m hr _ (validState_iterate m hr s hv n)⟩⟩

/-- Witness of C22: on `fourFan`, the state after `nextHE()` from the virtual
boundary position on the boundary edge of `a` is a valid position. -/
theorem validState_invariant_witness :
    TablesInRange fourFan ∧
    nextHE fourFan 12 { ei := 0, fi := 0, reverse := false, boundary := true } =
      some { ei := 2, fi := 3, reverse := false, boundary := true } ∧
    ValidState fourFan { ei := 2, fi := 3, reverse := false, boundary := true } :=
  ⟨tablesInRange_of_mirrorConsistent fourFan fourFan_mirrorConsistent, by decide,
   (validState_invariant fourFan
      (tablesInRange_of_mirrorConsistent fourFan fourFan_mirrorConsistent)
      { ei := 0, fi := 0, reverse := false, boundary := true }
      (by simp [ValidState, fourFan])).2.2.2.2.1 12 _ (by decide)⟩

/-- C23: the boundary flag is only ever set on a boundary edge.  The predicate
`boundary = true → FF(fi,ei) = -1` holds after construction and after a
successful `init`; it is preserved by `flipF`, `flipE`, `flipV`, `flipHE`, and
by `nextHE`, `iterHE`, `nextFE` whenever they return; so it holds in every
state reachable without `setState`, and there `isBoundaryHE()` implies
`isBoundaryE()`. -/
theorem boundaryFlag_invariant (m : Tables) :
    (∀ fi ei r, BoundaryFlagOK m (construct fi ei r)) ∧
    (∀ s faceIndex edgeIndex r, (init m s faceIndex edgeIndex r).1 = true →
      BoundaryFlagOK m (init m s faceIndex edgeIndex r).2) ∧
    (∀ s, BoundaryFlagOK m s →
      BoundaryFlagOK m (flipF m s).2 ∧ BoundaryFlagOK m (flipE s) ∧
      BoundaryFlagOK m (flipV s) ∧ BoundaryFlagOK m (flipHE m s) ∧
      (∀ fuel t, nextHE m fuel s = some t → BoundaryFlagOK m t) ∧
      (∀ fuel t, iterHE m fuel s = some t → BoundaryFlagOK m t) ∧
      (∀ fuel r, nextFE m fuel s = some r → BoundaryFlagOK m r.2)) ∧
    (∀ s, Reachable m s → BoundaryFlagOK m s) ∧
    (∀ s, Reachable m s → isBoundaryHE s = true → isBoundaryE m s = true) := by
  refine ⟨?_, ?_, ?_, ?_, ?_⟩
  · intro fi ei r hb
    simp [construct] at hb
  · intro s faceIndex edgeIndex r hok hb
    have hc : (faceIndex ≥ 0 && faceIndex < (m.rows : Int) && edgeIndex ≥ 0 &&
        edgeIndex ≤ 2) = true := by
      by_contra hn
      simp only [init, if_neg hn] at hok
      exact absurd hok (by decide)
    simp only [init, if_pos hc] at hb
    exact absurd hb (by decide)
  · intro s h
    exact ⟨flagOK_flipF m s h, flagOK_flipE m s, flagOK_flipV m s h, flagOK_flipHE m s,
      fun fuel t ht => flagOK_nextHE m s fuel t ht,
      fun fuel t ht => flagOK_iterHE m s fuel t ht,
      fun fuel r hr => flagOK_nextFE m s fuel r hr⟩
  · exact fun s hs => flagOK_of_reachable m s hs
  · intro s hs hb
    exact (isBoundaryE_eq_true_iff m s).2 (flagOK_of_reachable m s hs hb)

/-- Counterexample to C24: on `fourFan`, `nextFE()` called on the boundary edge
of `d` at `v`.  After the first pass `flipF(); flipE();` the cursor is on edge
0 of `d`, which is not a boundary edge, yet the loop does not stop there: it
stops after four passes on edge 0 of `a`, which is a boundary edge, and the
call ends in face `a`, not in face `d`. -/
theorem nextFE_loop_not_until_interior :
    fourFan.FF 3 2 = -1 ∧
    loopBody fourFan { ei := 2, fi := 3, reverse := true, boundary := false } =
      { ei := 0, fi := 3, reverse := false, boundary := false } ∧
    isBoundaryE fourFan { ei := 0, fi := 3, reverse := false, boundary := false } = false ∧
    searchLoop fourFan 12 { ei := 2, fi := 3, reverse := true, boundary := false } =
      some { ei := 0, fi := 0, reverse := false, boundary := false } ∧
    isBoundaryE fourFan { ei := 0, fi := 0, reverse := false, boundary := false } = true ∧
    nextFE fourFan 12 { ei := 2, fi := 3, reverse := true, boundary := false } =
      some (false, { ei := 2, fi := 0, reverse := true, boundary := false }) ∧
    nextFE fourFan 12 { ei := 2, fi := 3, reverse := true, boundary := false } ≠
      some (false, flipE (loopBody fourFan
        { ei := 2, fi := 3, reverse := true, boundary := false })) := by
  refine ⟨by decide, by decide, by decide, by decide, by decide, by decide, by decide⟩

/-- C24 (amended): when `nextFE()` is called on a boundary edge and returns, it
has repeated `flipF(); flipE();` until a boundary edge was reached: the loop
made `k ≥ 1` passes, stopped at the first position after a pass whose edge has
`FF(fi,ei) = -1`, then one more `flipE()` was made and false is reported.  On
mirror-consistent tables, from a valid state, it does return within a budget
of `3 * F.rows()` passes. -/
theorem nextFE_boundary_loop (m : Tables) (s : State) (hbe : m.FF s.fi s.ei = -1) :
    (∀ fuel r, nextFE m fuel s = some r →
      ∃ k, 1 ≤ k ∧ k ≤ fuel ∧
        isBoundaryE m ((loopBody m)^[k] s) = true ∧
        (∀ i, 1 ≤ i → i < k → isBoundaryE m ((loopBody m)^[i] s) = false) ∧
        r = (false, flipE ((loopBody m)^[k] s))) ∧
    (ValidState m s → MirrorConsistent m → ∀ fuel, 3 * m.rows ≤ fuel →
      ∃ r, nextFE m fuel s = some r) := by
  have hbd : isBoundaryE m s = true := (isBoundaryE_eq_true_iff m s).2 hbe
  refine ⟨?_, ?_⟩
  · intro fuel r h
    simp only [nextFE, hbd, if_true] at h
    cases hs : searchLoop m fuel s with
    | none => rw [hs] at h; simp at h
    | some u =>
      rw [hs] at h
      simp only [Option.map_some', Option.some.injEq] at h
      obtain ⟨k, hk1, hk2, hku, hkb, hkmin⟩ := searchLoop_spec m fuel s u hs
      exact ⟨k, hk1, hk2, hkb, hkmin, by rw [← h, hku]⟩
  · intro hv hm fuel hfuel
    obtain ⟨k, _, _, hres, _⟩ := searchLoop_total m hm s hv hbe fuel hfuel
    exact ⟨_, by simp only [nextFE, hbd, if_true, hres]; rfl⟩

/-- Witness of C24 (amended): on `fourFan`, from the boundary edge of `d`. -/
theorem nextFE_boundary_loop_witness :
    (∃ k, 1 ≤ k ∧ k ≤ 12 ∧
      isBoundaryE fourFan ((loopBody fourFan)^[k]
        { ei := 2, fi := 3, reverse := true, boundary := false }) = true ∧
      (∀ i, 1 ≤ i → i < k → isBoundaryE fourFan ((loopBody fourFan)^[i]
        { ei := 2, fi := 3, reverse := true, boundary := false }) = false) ∧
      ((false, { ei := 2, fi := 0, reverse := true, boundary := false }) : Bool × State) =
        (false, flipE ((loopBody fourFan)^[k]
          { ei := 2, fi := 3, reverse := true, boundary := false }))) ∧
    (∃ r, nextFE fourFan 12 { ei := 2, fi := 3, reverse := true, boundary := false }
      = some r) :=
  ⟨(nextFE_boundary_loop fourFan { ei := 2, fi := 3, reverse := true, boundary := false }
      (by decide)).1 12 _ (by decide),
   (nextFE_boundary_loop fourFan { ei := 2, fi := 3, reverse := true, boundary := false }
      (by decide)).2 (by simp [ValidState, fourFan]) fourFan_mirrorConsistent 12
      (by decide)⟩

/-- Counterexample to C25: on `fourFan`, from the virtual boundary position on
the boundary edge of `a` with reverse set, `nextHE()` ends with reverse set,
while the sequence with a second `flipV()` after `flipHE()` ends with reverse
cleared. -/
theorem nextHE_reversed_not_spec :
    nextHE fourFan 12 { ei := 0, fi := 0, reverse := true, boundary := true } =
      some { ei := 2, fi := 3, reverse := true, boundary := true } ∧
    nextHEReversedSpec fourFan 12 { ei := 0, fi := 0, reverse := true, boundary := true } =
      some { ei := 2, fi := 3, reverse := false, boundary := true } ∧
    nextHE fourFan 12 { ei := 0, fi := 0, reverse := true, boundary := true } ≠
      nextHEReversedSpec fourFan 12
        { ei := 0, fi := 0, reverse := true, boundary := true } := by
  refine ⟨by decide, by decide, by decide⟩

/-- C25 (amended): from a state with boundary and reverse set, `nextHE()` is
the sequence `flipV()`, then `flipF(); flipE();` repeated until the current
edge is a boundary edge, then `flipHE()`, with no `flipV()` after it; the
sequence with a second `flipV()` returns the same position with reverse
negated, so it never agrees with `nextHE()` when the search terminates.  With
reverse cleared instead, `nextHE()` is the search, then `flipHE()`, then
`flipV()`. -/
theorem nextHE_reversed_sequence (m : Tables) (s : State) (fuel : Nat)
    (hb : s.boundary = true) :
    (s.reverse = true →
      nextHE m fuel s = ((some (flipV s)).bind (searchLoop m fuel)).map (flipHE m) ∧
      (∀ t, nextHE m fuel s = some t →
        nextHEReversedSpec m fuel s = some (flipV t) ∧ flipV t ≠ t)) ∧
    (s.reverse = false →
      nextHE m fuel s =
        (((some s).bind (searchLoop m fuel)).map (flipHE m)).map flipV) := by
  refine ⟨?_, ?_⟩
  · intro hr
    have hcode : nextHE m fuel s =
        ((some (flipV s)).bind (searchLoop m fuel)).map (flipHE m) := by
      simp [nextHE, hb, hr]
    refine ⟨hcode, ?_⟩
    intro t ht
    rw [hcode] at ht
    simp only [Option.some_bind] at ht
    cases hs : searchLoop m fuel (flipV s) with
    | none => rw [hs] at ht; simp at ht
    | some u =>
      rw [hs] at ht
      simp only [Option.map_some', Option.some.injEq] at ht
      refine ⟨by simp [nextHEReversedSpec, hs, ht], ?_⟩
      intro hEq
      have := congrArg State.reverse hEq
      simp [flipV] at this
  · intro hr
    simp [nextHE, hb, hr]
    rfl

/-- Witness of C25 (amended): on `fourFan`, from the boundary edge of `a` with
boundary and reverse set. -/
theorem nextHE_reversed_sequence_witness :
    nextHE fourFan 12 { ei := 0, fi := 0, reverse := true, boundary := true } =
      ((some (flipV { ei := 0, fi := 0, reverse := true, boundary := true })).bind
        (searchLoop fourFan 12)).map (flipHE fourFan) ∧
    nextHE fourFan 12 { ei := 0, fi := 0, reverse := true, boundary := true } =
      some { ei := 2, fi := 3, reverse := true, boundary := true } :=
  ⟨((nextHE_reversed_sequence fourFan
      { ei := 0, fi := 0, reverse := true, boundary := true } 12 rfl).1 rfl).1,
   by decide⟩

end HalfEdgeIterator

end igl
